import Mathlib

/-!
# open_memstream (funopen-backed variant): embedding and contract proofs

Shallow embedding of `src/fmemopen/open_memstream.c`, the `__APPLE__` branch
(lines 8-131): a growable in-memory stream driven by the four `funopen`
callbacks.

Machine integers follow the LP64 ABI of that target: `size_t` is an unsigned
64-bit integer (a `Nat` reduced modulo `2^64`), `int` is a signed 32-bit
integer and `fpos_t` a signed 64-bit integer (both `Int`, with the conversions
written out).  Heap blocks are a capacity plus a total map from index to byte;
an access outside the capacity is undefined behaviour and makes the operation
return `none`.  Each call that may reach `realloc` takes the outcome of that
allocation as an argument: failure, or success together with the content of the
bytes the allocator leaves uninitialised.
-/

namespace Memstream

/-- One `char` of the buffer. -/
abbrev Byte := Fin 256

/-- Number of values of `size_t` (64-bit unsigned): `2^64`. -/
def SIZE_MOD : Nat := 18446744073709551616

/-- Number of values of `int` (32-bit): `2^32`. -/
def INT_MOD : Nat := 4294967296

/-- First value above `INT_MAX`: `2^31`. -/
def INT_LIM : Nat := 2147483648

/-- First value above the largest `fpos_t` (signed 64-bit): `2^63`. -/
def FPOS_LIM : Nat := 9223372036854775808

/-- Conversion of a signed integer to `size_t`: reduction modulo `2^64`. -/
def toSize (x : Int) : Nat := (x % (SIZE_MOD : Int)).toNat

/-- Conversion of a `size_t` value to `int`: the low 32 bits, read as two's complement. -/
def toInt (x : Nat) : Int :=
  if x % INT_MOD < INT_LIM then ((x % INT_MOD : Nat) : Int)
  else ((x % INT_MOD : Nat) : Int) - (INT_MOD : Int)

/-- Conversion of a `size_t` value to `fpos_t`: the 64 bits read as two's complement. -/
def toFpos (x : Nat) : Int :=
  if x % SIZE_MOD < FPOS_LIM then ((x % SIZE_MOD : Nat) : Int)
  else ((x % SIZE_MOD : Nat) : Int) - (SIZE_MOD : Int)

/-- Subtraction of two `size_t` values, wrapping modulo `2^64`. -/
def subSize (a b : Nat) : Nat := (a + SIZE_MOD - b % SIZE_MOD) % SIZE_MOD

/-- Addition of two `size_t` values, wrapping modulo `2^64`. -/
def addSize (a b : Nat) : Nat := (a + b) % SIZE_MOD

/-- A heap block: `cap` allocated bytes, `data i` the byte at index `i < cap`. -/
structure Block where
  cap : Nat
  data : Nat → Byte

/-- The `struct memstream` cookie together with the two caller slots it points
to: `cp` is `*ms->cp` (`none` is `NULL`), `lenp` is `*ms->lenp`. -/
structure memstream where
  cp : Option Block
  lenp : Nat
  offset : Nat

/-- Outcome of one allocator call: `none` when it returns `NULL`, `some fresh`
when it succeeds, `fresh i` being the (arbitrary) content of byte `i` of the
returned block wherever the allocator does not promise a value. -/
abbrev Alloc := Option (Nat → Byte)

/-- The byte at index `i` of the buffer, `none` outside the allocation. -/
def byteAt (cp : Option Block) (i : Nat) : Option Byte :=
  match cp with
  | none => none
  | some b => if i < b.cap then some (b.data i) else none

/-- Allocated capacity of the buffer (`0` for `NULL`). -/
def capOf (cp : Option Block) : Nat :=
  match cp with
  | none => 0
  | some b => b.cap

/-- Content of a block returned by `realloc`: the old bytes are kept, every
other byte is whatever the allocator hands out. -/
def carried (old : Option Block) (fresh : Nat → Byte) : Nat → Byte :=
  fun i =>
    match old with
    | none => fresh i
    | some b => if i < b.cap then b.data i else fresh i

/-- `realloc(old, size)`. -/
def realloc (old : Option Block) (size : Nat) (alloc : Alloc) : Option Block :=
  match alloc with
  | none => none
  | some fresh => some { cap := size, data := carried old fresh }

/-- `memset(b + start, 0, n)`; `none` when the range leaves the block. -/
def memset0 (b : Block) (start n : Nat) : Option Block :=
  if start + n ≤ b.cap then
    some { cap := b.cap,
           data := fun i => if start ≤ i ∧ i < start + n then 0 else b.data i }
  else none

/-- `memcpy(cp + off, src, n)` into the buffer.  A copy of zero bytes touches
nothing; any other copy needs the whole range inside the allocation. -/
def memcpyIn (cp : Option Block) (off : Nat) (src : Nat → Byte) (n : Nat) :
    Option (Option Block) :=
  if n = 0 then some cp
  else
    match cp with
    | none => none
    | some b =>
      if off + n ≤ b.cap then
        some (some { cap := b.cap,
                     data := fun i => if off ≤ i ∧ i < off + n then src (i - off)
                                      else b.data i })
      else none

/-- `memcpy(dst, cp + off, n)` out of the buffer: the `n` bytes copied. -/
def memcpyOut (cp : Option Block) (off n : Nat) : Option (List Byte) :=
  if n = 0 then some []
  else
    match cp with
    | none => none
    | some b =>
      if off + n ≤ b.cap then some ((List.range n).map (fun i => b.data (off + i)))
      else none

/-- `memstream_grow` (lines 15-32). -/
def memstream_grow (ms : memstream) (newsize : Nat) (alloc : Alloc) : Option memstream :=
  if newsize > ms.lenp then
    match realloc ms.cp (addSize newsize 1) alloc with
    | none => some ms
    | some buf =>
      match memset0 buf (ms.lenp + 1) (newsize - ms.lenp) with
      | none => none
      | some buf1 => some { cp := some buf1, lenp := newsize, offset := ms.offset }
  else some ms

/-- `memstream_read` (lines 34-51): the new state, the bytes stored in the
destination and the returned count. -/
def memstream_read (ms : memstream) (len : Int) (alloc : Alloc) :
    Option (memstream × List Byte × Int) :=
  match memstream_grow ms (addSize ms.offset (toSize len)) alloc with
  | none => none
  | some ms1 =>
    let avail : Int := toInt (subSize ms1.lenp ms1.offset)
    let tocopy : Int := if len < avail then len else avail
    match memcpyOut ms1.cp ms1.offset (toSize tocopy) with
    | none => none
    | some out =>
      some ({ cp := ms1.cp, lenp := ms1.lenp,
              offset := addSize ms1.offset (toSize tocopy) }, out, tocopy)

/-- `memstream_write` (lines 53-70): the new state and the returned count. -/
def memstream_write (ms : memstream) (buf : Nat → Byte) (len : Int) (alloc : Alloc) :
    Option (memstream × Int) :=
  match memstream_grow ms (addSize ms.offset (toSize len)) alloc with
  | none => none
  | some ms1 =>
    let avail : Int := toInt (subSize ms1.lenp ms1.offset)
    let tocopy : Int := if len < avail then len else avail
    match memcpyIn ms1.cp ms1.offset buf (toSize tocopy) with
    | none => none
    | some cp2 =>
      some ({ cp := cp2, lenp := ms1.lenp,
              offset := addSize ms1.offset (toSize tocopy) }, tocopy)

/-- `SEEK_SET` of `<stdio.h>`. -/
def SEEK_SET : Int := 0

/-- `SEEK_CUR` of `<stdio.h>`. -/
def SEEK_CUR : Int := 1

/-- `SEEK_END` of `<stdio.h>`. -/
def SEEK_END : Int := 2

/-- `memstream_seek` (lines 72-100): the new state and the returned position. -/
def memstream_seek (ms : memstream) (pos : Int) (whence : Int) : memstream × Int :=
  let off : Nat :=
    if whence = SEEK_SET then toSize pos
    else if whence = SEEK_CUR then addSize ms.offset (toSize pos)
    else if whence = SEEK_END then addSize ms.lenp (toSize pos)
    else ms.offset
  ({ cp := ms.cp, lenp := ms.lenp, offset := off }, toFpos off)

/-- `memstream_close` (lines 102-108): the cookie is freed; what stays behind is
the content of the caller's two slots, and the call returns `0`. -/
def memstream_close (ms : memstream) : (Option Block × Nat) × Int :=
  ((ms.cp, ms.lenp), 0)

/-- `open_memstream` (lines 110-131): `*cp = NULL`, `*lenp = 0`, offset `0`. -/
def open_memstream : memstream :=
  { cp := none, lenp := 0, offset := 0 }

/-- One callback invocation made by the stream layer. -/
inductive Op where
  | read (len : Int) (alloc : Alloc)
  | write (buf : Nat → Byte) (len : Int) (alloc : Alloc)
  | seek (pos : Int) (whence : Int)

/-- Effect of one callback on the stream state (`none`: undefined behaviour). -/
def step (ms : memstream) : Op → Option memstream
  | Op.read len alloc => (memstream_read ms len alloc).map (fun r => r.1)
  | Op.write buf len alloc => (memstream_write ms buf len alloc).map (fun r => r.1)
  | Op.seek pos whence => some (memstream_seek ms pos whence).1

/-- Effect of a sequence of callbacks, in order. -/
def run (ms : memstream) : List Op → Option memstream
  | [] => some ms
  | op :: ops =>
    match step ms op with
    | none => none
    | some ms1 => run ms1 ops

/-- A byte string seen as the memory a `const char *` points to. -/
def srcOf (B : List Byte) : Nat → Byte := fun i => B.getD i 0

/-- The callback that writes the byte string `B`, the allocator succeeding
with content `fresh`. -/
def writeOp (c : List Byte × (Nat → Byte)) : Op :=
  Op.write (srcOf c.1) (c.1.length : Int) (some c.2)

/-- The first `lenp` bytes of the buffer: what the caller finds in its two slots. -/
def contents (ms : memstream) : Option (List Byte) :=
  match ms.cp with
  | none => if ms.lenp = 0 then some [] else none
  | some b => if ms.lenp ≤ b.cap then some ((List.range ms.lenp).map b.data) else none

/-- Data invariant of a stream state: both `size_t` fields are in range, a
`NULL` buffer goes with length `0`, and a buffer holds at least `lenp + 1` bytes. -/
def Valid (ms : memstream) : Prop :=
  ms.offset < SIZE_MOD ∧ ms.lenp < SIZE_MOD ∧
    (ms.cp = none → ms.lenp = 0) ∧ (∀ b, ms.cp = some b → ms.lenp + 1 ≤ b.cap)

/-- Index `i` lies in the range `[o, o + n)` touched by a transfer. -/
def inRange (o n i : Nat) : Prop := o ≤ i ∧ i < o + n

instance (o n i : Nat) : Decidable (inRange o n i) := by
  unfold inRange; infer_instance

/-- The state `memstream_grow` produces when it really grows the buffer. -/
def grown (ms : memstream) (newsize : Nat) (fresh : Nat → Byte) : memstream :=
  { cp := some { cap := newsize + 1,
                 data := fun i => if ms.lenp + 1 ≤ i ∧ i < ms.lenp + 1 + (newsize - ms.lenp)
                                  then 0 else carried ms.cp fresh i },
    lenp := newsize, offset := ms.offset }

/-- Lengths observed after each successive callback of a sequence, up to the
first one (if any) with undefined behaviour. -/
def lengths (ms : memstream) : List Op → List Nat
  | [] => []
  | op :: ops =>
    match step ms op with
    | none => []
    | some ms1 => ms1.lenp :: lengths ms1 ops

/-- Seek back to the start and read the whole length in one call: the bytes
delivered to the destination. -/
def readBack (ms : memstream) (alloc : Alloc) : Option (List Byte) :=
  (memstream_read (memstream_seek ms 0 SEEK_SET).1 (ms.lenp : Int) alloc).map (fun r => r.2.1)

/-- The offset the specification prescribes for a seek: `position` from the
start, `offset + position` from the current offset, `length + position` from
the end. -/
def specSeekOffset (ms : memstream) (pos whence : Int) : Int :=
  if whence = SEEK_SET then pos
  else if whence = SEEK_CUR then (ms.offset : Int) + pos
  else (ms.lenp : Int) + pos

/-- An allocator that hands out memory filled with `0xAA`. -/
def junk : Nat → Byte := fun _ => 170

/-- A stream holding 4 GiB of zero bytes (`lenp = 2^32`), offset at the start. -/
def hugeStream : memstream :=
  { cp := some { cap := 4294967297, data := fun _ => 0 }, lenp := 4294967296, offset := 0 }

/-- A stream holding 2 GiB of zero bytes (`lenp = 2^31`), offset at the start. -/
def twoGiBStream : memstream :=
  { cp := some { cap := 2147483649, data := fun _ => 0 }, lenp := 2147483648, offset := 0 }

/-- The state reached by writing the bytes `1, 2` to a fresh stream: two bytes
of content, the terminator, and the offset at the end. -/
def twoByteStream : memstream :=
  { cp := some { cap := 3, data := fun i => if i = 0 then 1 else if i = 1 then 2 else 0 },
    lenp := 2, offset := 2 }

/-- The stream holding `[1, 2]` after a seek to offset 5, past the end. -/
def pastEndStream : memstream :=
  (memstream_seek twoByteStream 5 SEEK_SET).1

/-- A callback as the stream layer issues it: the byte count of a read or a
write is a non-negative `int`. -/
def Op.wellTyped : Op → Prop
  | Op.read len _ => 0 ≤ len ∧ len < (INT_LIM : Int)
  | Op.write _ len _ => 0 ≤ len ∧ len < (INT_LIM : Int)
  | Op.seek _ _ => True

/-- State invariant: both `size_t` fields are in range, and either there is no
buffer and the length is `0`, or the buffer has exactly `lenp + 1` bytes and
the byte at index `lenp` is zero. -/
def Terminated (ms : memstream) : Prop :=
  ms.offset < SIZE_MOD ∧ ms.lenp < SIZE_MOD ∧
    match ms.cp with
    | none => ms.lenp = 0
    | some b => b.cap = ms.lenp + 1 ∧ b.data ms.lenp = 0

end Memstream

/-!
# open_memstream (scratch-file variant): embedding

Shallow embedding of the `_WIN32` branch (lines 151-288): every open stream is
a scratch file `ostr_job_<pid>/o_stream_<n>`, and a process-wide list of
`oListNode` records maps the `FILE *` handle back to the caller's two output
slots.  `FILE *` handles and the addresses of the caller's slots are natural
numbers.  `abort()` and signed overflow leave no state: the operation returns
`none`.  The C library calls (`fopen`, `fflush`, `ftell`, `calloc`, `fseek`,
`fread`, `remove`, `mkdir`, `rmdir`) are not code of this file; their outcomes
are arguments, and their effect on a byte-transparent stream is the standard one.
-/

namespace Scratch

open Memstream (Byte INT_LIM)

/-- `struct oListNode` (lines 160-167); the `pnext` link is the list structure. -/
structure oListNode where
  o_stream_number : Int
  file : Nat
  buf : Nat
  length : Nat

/-- `addONode` (lines 171-192), on the path where `calloc` returns a node: walk
past the nodes whose number is below the new one and link the new node there. -/
def addONode (o_stream_number : Int) (file buf length : Nat) :
    List oListNode → List oListNode
  | [] => [⟨o_stream_number, file, buf, length⟩]
  | cur :: rest =>
    if cur.o_stream_number < o_stream_number then
      cur :: addONode o_stream_number file buf length rest
    else ⟨o_stream_number, file, buf, length⟩ :: cur :: rest

/-- The loop of `get_o_stream_number` (lines 233-236): `o_stream_number++` on an
`int`, undefined on overflow. -/
def scanNumber (o_stream_number : Int) : List oListNode → Option Int
  | [] => some o_stream_number
  | cur :: rest =>
    if o_stream_number ≥ cur.o_stream_number then
      if o_stream_number + 1 < (INT_LIM : Int) then scanNumber (o_stream_number + 1) rest
      else none
    else some o_stream_number

/-- `get_o_stream_number` (lines 228-238). -/
def get_o_stream_number (oList : List oListNode) : Option Int :=
  scanNumber 1 oList

/-- The text `sprintf` produces for `%d`. -/
def fmtInt (x : Int) : List Char :=
  if x < 0 then '-' :: Nat.toDigits 10 x.natAbs else Nat.toDigits 10 x.toNat

/-- `setODirName` (lines 240-243), `pid` being the value of `_getpid()`. -/
def setODirName (pid : Int) : List Char :=
  "ostr_job_".toList ++ fmtInt pid

/-- `setOFileName` (lines 245-251). -/
def setOFileName (pid : Int) (stream_number : Int) : List Char :=
  setODirName pid ++ ("/o_stream_".toList ++ fmtInt stream_number)

/-- Size of the `file_name` arrays of `open_memstream`, `delONode` and
`close_memstream`. -/
def FILE_NAME_SIZE : Nat := 30

/-- The stream behind a `FILE *`: the bytes of the scratch file and the
current position. -/
structure FileState where
  content : List Byte
  pos : Nat

/-- Everything the adapter reads or writes: the registry `oList`, whether the
scratch directory exists, the numbers of the scratch files that exist, the
stream behind each handle, and the caller's buffer and length slots by
address (`none`: nothing stored yet). -/
structure World where
  oList : List oListNode
  dir : Bool
  scratch : List Int
  files : Nat → FileState
  bufs : Nat → Option (List Byte)
  lens : Nat → Nat

/-- The process at start: empty registry, no directory, no scratch file. -/
def initial : World :=
  { oList := [], dir := false, scratch := [], files := fun _ => ⟨[], 0⟩,
    bufs := fun _ => none, lens := fun _ => 0 }

/-- `open_memstream` (lines 253-275).  `fopenResult` is what `fopen` returns when
the directory exists (`none`: `NULL`), `nodeOk` whether `calloc` in `addONode`
succeeds.  Returns the new world and the handle. -/
def open_memstream (w : World) (ptr sizeloc : Nat) (fopenResult : Option Nat)
    (nodeOk : Bool) : Option (World × Option Nat) :=
  let dir1 : Bool :=
    match w.oList with
    | [] => true
    | _ :: _ => w.dir
  match get_o_stream_number w.oList with
  | none => none
  | some o_stream_number =>
    match (if dir1 then fopenResult else none) with
    | none => some ({ w with dir := dir1 }, none)
    | some f =>
      if nodeOk then
        some ({ oList := addONode o_stream_number f ptr sizeloc w.oList,
                dir := dir1,
                scratch := List.insert o_stream_number w.scratch,
                files := fun h => if h = f then ⟨[], 0⟩ else w.files h,
                bufs := w.bufs, lens := w.lens }, some f)
      else none

/-- Outcomes of the library calls of `delONode`, each `true` on success. -/
structure CloseIO where
  flushOk : Bool
  tellOk : Bool
  allocOk : Bool
  seekOk : Bool
  removeOk : Bool

/-- All library calls succeed. -/
def allOk : CloseIO := ⟨true, true, true, true, true⟩

/-- The unlinking of `delONode`: drop the first node whose handle is `file`. -/
def unlinkNode (file : Nat) : List oListNode → List oListNode
  | [] => []
  | cur :: rest => if cur.file = file then rest else cur :: unlinkNode file rest

/-- The buffer `delONode` builds: `calloc(1, length + 1)` filled by
`fread(buf, 1, length, file)` from the start of the file. -/
def materialise (f : FileState) (length : Nat) : List Byte :=
  f.content.take length ++ List.replicate (length + 1 - (f.content.take length).length) 0

/-- `delONode` (lines 194-225): `*length = ftell(file)`, the buffer is read back
from the start, the file is closed and removed and the node unlinked; any
failing library call aborts. -/
def delONode (w : World) (file : Nat) (io : CloseIO) : Option World :=
  match w.oList.find? (fun n => n.file = file) with
  | none => some w
  | some todel =>
    if io.flushOk && io.tellOk && io.allocOk && io.seekOk && io.removeOk then
      let length : Nat := (w.files file).pos
      some { oList := unlinkNode file w.oList,
             dir := w.dir,
             scratch := w.scratch.filter (fun k => k ≠ todel.o_stream_number),
             files := w.files,
             bufs := fun a => if a = todel.buf then some (materialise (w.files file) length)
                              else w.bufs a,
             lens := fun a => if a = todel.length then length else w.lens a }
    else none

/-- `close_memstream` (lines 278-288): `rmdir` removes the directory when it
holds no scratch file. -/
def close_memstream (w : World) (f : Nat) (io : CloseIO) : Option World :=
  match delONode w f io with
  | none => none
  | some w1 =>
    match w1.oList with
    | [] => some { w1 with dir := if w1.scratch.isEmpty then false else w1.dir }
    | _ :: _ => some w1

/-- C library `fwrite` on the stream behind handle `f`: the bytes replace or
extend the content from the current position on. -/
def fileWrite (w : World) (f : Nat) (bytes : List Byte) : World :=
  let st := w.files f
  let padded := st.content ++ List.replicate (st.pos - st.content.length) 0
  { w with files := fun h =>
      if h = f then
        ⟨padded.take st.pos ++ bytes ++ padded.drop (st.pos + bytes.length),
          st.pos + bytes.length⟩
      else w.files h }

/-- C library `fseek(f, pos, SEEK_SET)`. -/
def fileSeek (w : World) (f : Nat) (pos : Nat) : World :=
  { w with files := fun h => if h = f then ⟨(w.files f).content, pos⟩ else w.files h }

/-- One call into the adapter: `open_memstream` or `close_memstream`. -/
inductive Call where
  | opening (ptr sizeloc : Nat) (fopenResult : Option Nat) (nodeOk : Bool)
  | closing (f : Nat) (io : CloseIO)

/-- Effect of one call (`none`: the process aborted or behaviour is undefined). -/
def stepCall (w : World) : Call → Option World
  | Call.opening ptr sizeloc fopenResult nodeOk =>
    (open_memstream w ptr sizeloc fopenResult nodeOk).map (fun r => r.1)
  | Call.closing f io => close_memstream w f io

/-- Effect of a sequence of calls, in order. -/
def runCalls (w : World) : List Call → Option World
  | [] => some w
  | c :: cs =>
    match stepCall w c with
    | none => none
    | some w1 => runCalls w1 cs

/-- The call is not an `open_memstream` whose `fopen` fails. -/
def Call.opens : Call → Prop
  | Call.opening _ _ fopenResult _ => fopenResult ≠ none
  | Call.closing _ _ => True

/-- The stream numbers of a registry, in list order. -/
def numbers (oList : List oListNode) : List Int :=
  oList.map (fun n => n.o_stream_number)

/-- Consistency of the adapter's state: the stream numbers are positive and
strictly ascending, the scratch files that exist are those of the registered
streams, and a non-empty registry has its directory. -/
def WorldInv (w : World) : Prop :=
  (∀ r ∈ w.oList, 0 < r.o_stream_number) ∧
    (numbers w.oList).Pairwise (fun a b => a < b) ∧
    (∀ k, k ∈ w.scratch ↔ k ∈ numbers w.oList) ∧
    (w.oList ≠ [] → w.dir = true)

/-- A session: two streams opened, a failed open, the first stream closed, a
third opened (it reuses number 1), and a close on a handle never opened. -/
def sessionCalls : List Call :=
  [Call.opening 0 0 (some 10) true, Call.opening 1 1 (some 11) true,
    Call.opening 2 2 none true, Call.closing 10 allOk, Call.opening 3 3 (some 12) true,
    Call.closing 99 allOk]

/-- A session in which every open obtains its file: two streams opened and
closed in the order of opening. -/
def cleanCalls : List Call :=
  [Call.opening 0 0 (some 10) true, Call.opening 1 1 (some 11) true,
    Call.closing 10 allOk, Call.closing 11 allOk]

/-- The scenario of the specification up to the close: open a stream (handle 7,
slots at address 0), write `[1,2,3,4,5]`, seek to 2, write `[9,9]`. -/
def overwriteBeforeClose : Option World :=
  (open_memstream initial 0 0 (some 7) true).map
    (fun r => fileWrite (fileSeek (fileWrite r.1 7 [1, 2, 3, 4, 5]) 7 2) 7 [9, 9])

/-- The scenario of the specification, closed. -/
def overwriteScenario : Option World :=
  overwriteBeforeClose.bind (fun w => close_memstream w 7 allOk)

end Scratch

namespace Memstream

/-! ## Machine arithmetic -/

theorem toSize_natCast (n : Nat) (h : n < SIZE_MOD) : toSize (n : Int) = n := by
  unfold toSize
  unfold SIZE_MOD at *
  omega

theorem addSize_small (a b : Nat) (h : a + b < SIZE_MOD) : addSize a b = a + b := by
  unfold addSize
  exact Nat.mod_eq_of_lt h

theorem subSize_le (a b : Nat) (hb : b ≤ a) (ha : a < SIZE_MOD) : subSize a b = a - b := by
  unfold subSize
  unfold SIZE_MOD at *
  omega

theorem toInt_small (x : Nat) (h : x < INT_LIM) : toInt x = (x : Int) := by
  unfold toInt
  unfold INT_LIM at h
  unfold INT_MOD INT_LIM
  have e : x % 4294967296 = x := Nat.mod_eq_of_lt (by omega)
  rw [e, if_pos h]

/-! ## Buffer growth -/

theorem grow_noop (ms : memstream) (newsize : Nat) (alloc : Alloc)
    (h : newsize ≤ ms.lenp) : memstream_grow ms newsize alloc = some ms := by
  unfold memstream_grow
  rw [if_neg (by omega)]

theorem grow_fail (ms : memstream) (newsize : Nat) :
    memstream_grow ms newsize none = some ms := by
  unfold memstream_grow realloc
  split <;> rfl

theorem grow_some (ms : memstream) (newsize : Nat) (fresh : Nat → Byte)
    (h : ms.lenp < newsize) (hs : newsize + 1 < SIZE_MOD) :
    memstream_grow ms newsize (some fresh) = some (grown ms newsize fresh) := by
  unfold memstream_grow realloc memset0 grown
  rw [if_pos h, addSize_small _ _ hs]
  simp only []
  rw [if_pos (by omega)]

/-! ## The write callback -/

/-- Contract of `memstream_write` on a valid state, for a request of `n` bytes
that fits the machine types: `n` is an `int`, the grown size and its terminator
fit `size_t`, and the extent left after the offset fits the `int` variable
`tocopy`.  The allocator has to succeed only when the buffer must grow. -/
theorem write_contract (ms : memstream) (buf : Nat → Byte) (n : Nat) (alloc : Alloc)
    (hv : Valid ms) (hn : n < INT_LIM) (hs : ms.offset + n + 1 < SIZE_MOD)
    (hfit : ms.lenp < ms.offset + INT_LIM) (ha : ms.lenp < ms.offset + n → alloc ≠ none) :
    ∃ ms1, memstream_write ms buf (n : Int) alloc = some (ms1, (n : Int)) ∧
      ms1.offset = ms.offset + n ∧ ms1.lenp = max ms.lenp (ms.offset + n) ∧ Valid ms1 ∧
      (∀ i, i < n → byteAt ms1.cp (ms.offset + i) = some (buf i)) ∧
      (∀ i, i ≤ ms.lenp → i < capOf ms.cp → ¬ inRange ms.offset n i →
        byteAt ms1.cp i = byteAt ms.cp i) ∧
      (∀ i, ms.lenp < i → i ≤ ms1.lenp → ¬ inRange ms.offset n i →
        byteAt ms1.cp i = some 0) := by
  obtain ⟨cp, L, o⟩ := ms
  obtain ⟨hv1, hv2, hv3, hv4⟩ := hv
  simp only at hv1 hv2 hv3 hv4 hs hfit ha
  have hlim : INT_LIM = 2147483648 := rfl
  have hmod : SIZE_MOD = 18446744073709551616 := rfl
  have e1 : toSize (n : Int) = n := toSize_natCast n (by omega)
  have e2 : addSize o n = o + n := addSize_small _ _ (by omega)
  by_cases hg : L < o + n
  · -- the buffer grows to `o + n`
    obtain ⟨fresh, rfl⟩ : ∃ f, alloc = some f := by
      cases alloc with
      | none => exact absurd rfl (ha hg)
      | some f => exact ⟨f, rfl⟩
    have hgrow := grow_some ⟨cp, L, o⟩ (o + n) fresh hg (by omega)
    have e3 : subSize (o + n) o = n := by rw [subSize_le _ _ (by omega) (by omega)]; omega
    have e4 : toInt n = (n : Int) := toInt_small n hn
    unfold memstream_write
    simp only [e1, e2, hgrow, grown, e3, e4, lt_self_iff_false, if_false]
    unfold memcpyIn
    by_cases hz : n = 0
    · subst hz
      refine ⟨_, rfl, rfl, ?_, ?_, ?_, ?_, ?_⟩
      · simp only [Nat.add_zero]; omega
      · refine ⟨by (try simp only []); omega, by (try simp only []); omega, by simp, ?_⟩
        intro b hb
        simp only [Option.some.injEq] at hb
        subst hb
        simp
      · intro i hi; omega
      · intro i hi hc _
        simp only [byteAt]
        rw [if_pos (by simp only [Nat.add_zero]; omega), if_neg (by omega)]
        cases cp with
        | none => simp [capOf] at hc
        | some b => simp only [capOf] at hc; simp [carried, byteAt, hc]
      · intro i hi hi2 _
        simp only [Nat.add_zero] at hi2 ⊢
        simp only [byteAt]
        rw [if_pos (by omega), if_pos (by omega)]
    · simp only [hz, if_false]
      rw [if_pos (by omega)]
      refine ⟨_, rfl, rfl, ?_, ?_, ?_, ?_, ?_⟩
      · (try simp only []); omega
      · refine ⟨by (try simp only []); omega, by (try simp only []); omega, by simp, ?_⟩
        intro b hb
        simp only [Option.some.injEq] at hb
        subst hb
        simp
      · intro i hi
        simp only [byteAt]
        rw [if_pos (by omega), if_pos (by omega)]
        simp
      · intro i hi hc hr
        unfold inRange at hr
        simp only [byteAt]
        rw [if_pos (by omega), if_neg (by omega), if_neg (by omega)]
        cases cp with
        | none => simp [capOf] at hc
        | some b => simp only [capOf] at hc; simp [carried, byteAt, hc]
      · intro i hi hi2 hr
        unfold inRange at hr
        simp only [] at hi2
        simp only [byteAt]
        rw [if_pos (by omega), if_neg (by omega), if_pos (by omega)]
  · -- the request lies inside the current extent
    have hgrow := grow_noop ⟨cp, L, o⟩ (o + n) alloc (by (try simp only []); omega)
    have e3 : subSize L o = L - o := subSize_le _ _ (by omega) (by omega)
    have e4 : toInt (L - o) = ((L - o : Nat) : Int) := toInt_small _ (by omega)
    have e5 : (if (n : Int) < ((L - o : Nat) : Int) then (n : Int) else ((L - o : Nat) : Int))
        = (n : Int) := by
      split
      · rfl
      · omega
    unfold memstream_write
    simp only [e1, e2, hgrow, e3, e4, e5]
    have hmax : max L (o + n) = L := by omega
    unfold memcpyIn
    by_cases hz : n = 0
    · subst hz
      refine ⟨_, rfl, rfl, ?_, ?_, ?_, ?_, ?_⟩
      · (try simp only []); omega
      · exact ⟨hv1, hv2, hv3, hv4⟩
      · intro i hi; omega
      · intro i _ _ _; rfl
      · intro i hi hi2; simp only [] at hi2; omega
    · simp only [hz, if_false]
      cases cp with
      | none => have := hv3 rfl; omega
      | some b =>
        have hb := hv4 b rfl
        simp only []
        rw [if_pos (by omega)]
        refine ⟨_, rfl, rfl, ?_, ?_, ?_, ?_, ?_⟩
        · (try simp only []); omega
        · refine ⟨by (try simp only []); omega, by (try simp only []); omega, by simp, ?_⟩
          intro b1 hb1
          simp only [Option.some.injEq] at hb1
          subst hb1
          simpa using hb
        · intro i hi
          simp only [byteAt]
          rw [if_pos (by omega), if_pos (by omega)]
          simp
        · intro i hi hc hr
          unfold inRange at hr
          simp only [byteAt]
          rw [if_neg hr]
        · intro i hi hi2; simp only [] at hi2; omega

/-- The terminator survives a write: when the buffer grows, or when the byte at
index `lenp` was zero before, the byte at the new `lenp` is zero afterwards. -/
theorem write_terminator (ms ms1 : memstream) (n : Nat)
    (hl : ms1.lenp = max ms.lenp (ms.offset + n))
    (hold : ∀ i, i ≤ ms.lenp → i < capOf ms.cp → ¬ inRange ms.offset n i →
      byteAt ms1.cp i = byteAt ms.cp i)
    (hzero : ∀ i, ms.lenp < i → i ≤ ms1.lenp → ¬ inRange ms.offset n i →
      byteAt ms1.cp i = some 0)
    (h : ms.lenp < ms.offset + n ∨ byteAt ms.cp ms.lenp = some 0) :
    byteAt ms1.cp ms1.lenp = some 0 := by
  by_cases hg : ms.lenp < ms.offset + n
  · apply hzero
    · omega
    · omega
    · unfold inRange; omega
  · have hz : byteAt ms.cp ms.lenp = some 0 := by
      cases h with
      | inl h => exact absurd h hg
      | inr h => exact h
    have hc : ms.lenp < capOf ms.cp := by
      cases hcp : ms.cp with
      | none => rw [hcp] at hz; simp [byteAt] at hz
      | some b =>
        rw [hcp] at hz
        simp only [byteAt] at hz
        simp only [capOf]
        by_contra hcon
        rw [if_neg hcon] at hz
        exact Option.noConfusion hz
    have e : ms1.lenp = ms.lenp := by omega
    rw [e, ← hz]
    apply hold _ (Nat.le_refl _) hc
    unfold inRange; omega

/-! ## The read callback -/

theorem memcpyOut_length (cp : Option Block) (off n : Nat) (out : List Byte)
    (h : memcpyOut cp off n = some out) : out.length = n := by
  unfold memcpyOut at h
  by_cases hz : n = 0
  · rw [if_pos hz] at h
    simp only [Option.some.injEq] at h
    subst h; subst hz; rfl
  · rw [if_neg hz] at h
    cases cp with
    | none => exact Option.noConfusion h
    | some b =>
      simp only at h
      by_cases hc : off + n ≤ b.cap
      · rw [if_pos hc] at h
        simp only [Option.some.injEq] at h
        subst h
        simp
      · rw [if_neg hc] at h
        exact Option.noConfusion h

theorem memcpyOut_some (cp : Option Block) (off n : Nat) (hc : off + n ≤ capOf cp) :
    ∃ out, memcpyOut cp off n = some out ∧ out.length = n ∧
      ∀ i, i < n → out[i]? = byteAt cp (off + i) := by
  unfold memcpyOut
  by_cases hz : n = 0
  · subst hz
    exact ⟨[], by simp, rfl, fun i hi => absurd hi (by omega)⟩
  · rw [if_neg hz]
    cases cp with
    | none => simp only [capOf] at hc; omega
    | some b =>
      simp only [capOf] at hc
      simp only
      rw [if_pos hc]
      refine ⟨_, rfl, by simp, ?_⟩
      intro i hi
      simp only [byteAt]
      rw [if_pos (by omega), List.getElem?_map, List.getElem?_range hi]
      rfl

/-- Contract of `memstream_read` on a valid state, for a request of `n` bytes
that fits the machine types (as for `write_contract`). -/
theorem read_contract (ms : memstream) (n : Nat) (alloc : Alloc)
    (hv : Valid ms) (hn : n < INT_LIM) (hs : ms.offset + n + 1 < SIZE_MOD)
    (hfit : ms.lenp < ms.offset + INT_LIM) (ha : ms.lenp < ms.offset + n → alloc ≠ none) :
    ∃ ms1 out, memstream_read ms (n : Int) alloc = some (ms1, out, (n : Int)) ∧
      ms1.offset = ms.offset + n ∧ ms1.lenp = max ms.lenp (ms.offset + n) ∧ Valid ms1 ∧
      out.length = n ∧
      (∀ i, i < n → out[i]? = byteAt ms1.cp (ms.offset + i)) ∧
      (∀ i, i ≤ ms.lenp → i < capOf ms.cp → byteAt ms1.cp i = byteAt ms.cp i) ∧
      (∀ i, ms.lenp < i → i ≤ ms1.lenp → byteAt ms1.cp i = some 0) := by
  obtain ⟨cp, L, o⟩ := ms
  obtain ⟨hv1, hv2, hv3, hv4⟩ := hv
  simp only at hv1 hv2 hv3 hv4 hs hfit ha
  have hlim : INT_LIM = 2147483648 := rfl
  have hmod : SIZE_MOD = 18446744073709551616 := rfl
  have e1 : toSize (n : Int) = n := toSize_natCast n (by omega)
  have e2 : addSize o n = o + n := addSize_small _ _ (by omega)
  by_cases hg : L < o + n
  · obtain ⟨fresh, rfl⟩ : ∃ f, alloc = some f := by
      cases alloc with
      | none => exact absurd rfl (ha hg)
      | some f => exact ⟨f, rfl⟩
    have hgrow := grow_some ⟨cp, L, o⟩ (o + n) fresh hg (by omega)
    have e3 : subSize (o + n) o = n := by rw [subSize_le _ _ (by omega) (by omega)]; omega
    have e4 : toInt n = (n : Int) := toInt_small n hn
    obtain ⟨out, hout, hlen, hget⟩ := memcpyOut_some (grown ⟨cp, L, o⟩ (o + n) fresh).cp o n
      (by simp only [grown, capOf]; omega)
    have hgl : (grown ⟨cp, L, o⟩ (o + n) fresh).lenp = o + n := rfl
    have hgo : (grown ⟨cp, L, o⟩ (o + n) fresh).offset = o := rfl
    unfold memstream_read
    simp only [e1, e2, hgrow, hgl, hgo, e3, e4, lt_self_iff_false, if_false, hout]
    refine ⟨_, _, rfl, rfl, ?_, ?_, hlen, hget, ?_, ?_⟩
    · simp only [grown]; omega
    · refine ⟨by simp only [grown]; omega, by simp only [grown]; omega, by simp [grown], ?_⟩
      intro b hb
      simp only [grown, Option.some.injEq] at hb
      subst hb
      simp [grown]
    · intro i hi hc
      simp only [grown, byteAt]
      rw [if_pos (by omega), if_neg (by omega)]
      cases cp with
      | none => simp [capOf] at hc
      | some b => simp only [capOf] at hc; simp [carried, byteAt, hc]
    · intro i hi hi2
      simp only [grown] at hi2
      simp only [grown, byteAt]
      rw [if_pos (by omega), if_pos (by omega)]
  · have hgrow := grow_noop ⟨cp, L, o⟩ (o + n) alloc (by (try simp only []); omega)
    have e3 : subSize L o = L - o := subSize_le _ _ (by omega) (by omega)
    have e4 : toInt (L - o) = ((L - o : Nat) : Int) := toInt_small _ (by omega)
    have e5 : (if (n : Int) < ((L - o : Nat) : Int) then (n : Int) else ((L - o : Nat) : Int))
        = (n : Int) := by
      split
      · rfl
      · omega
    have hcap : o + n ≤ capOf cp := by
      cases cp with
      | none => have := hv3 rfl; simp only [capOf]; omega
      | some b => have := hv4 b rfl; simp only [capOf]; omega
    obtain ⟨out, hout, hlen, hget⟩ := memcpyOut_some cp o n hcap
    unfold memstream_read
    simp only [e1, e2, hgrow, e3, e4, e5, hout]
    refine ⟨_, _, rfl, rfl, ?_, ⟨?_, hv2, hv3, hv4⟩, hlen, hget, ?_, ?_⟩
    · (try simp only []); omega
    · (try simp only []); omega
    · intro i _ _; rfl
    · intro i hi hi2; simp only [] at hi2; omega

/-! ## Sequences of writes -/

theorem contents_of_bytes (ms : memstream) (l : List Byte) (hl : ms.lenp = l.length)
    (h : ∀ i, i < l.length → byteAt ms.cp i = l[i]?) : contents ms = some l := by
  obtain ⟨cp, L, o⟩ := ms
  simp only at hl h
  subst hl
  unfold contents
  cases cp with
  | none =>
    cases l with
    | nil => simp
    | cons a t =>
      have := h 0 (by simp)
      simp [byteAt] at this
  | some b =>
    simp only
    have hcap : l.length ≤ b.cap := by
      by_contra hc
      have hpos : b.cap < l.length := by omega
      have := h b.cap hpos
      simp [byteAt, List.getElem?_eq_getElem hpos] at this
    rw [if_pos hcap]
    congr 1
    apply List.ext_getElem?
    intro i
    by_cases hi : i < l.length
    · have := h i hi
      simp only [byteAt] at this
      rw [if_pos (by omega)] at this
      rw [List.getElem?_map, List.getElem?_range hi, ← this]
      rfl
    · rw [List.getElem?_eq_none (by simpa using hi), List.getElem?_eq_none (by simpa using hi)]

theorem capOf_pos_of_valid (ms : memstream) (hv : Valid ms) (i : Nat) (hi : i < ms.lenp) :
    i < capOf ms.cp := by
  obtain ⟨cp, L, o⟩ := ms
  obtain ⟨_, _, h3, h4⟩ := hv
  cases cp with
  | none => have := h3 rfl; simp only at this hi; omega
  | some b => have := h4 b rfl; simp only [capOf] at this hi ⊢; omega

/-- Appending writes: from a state whose offset is at the end of the content
`acc`, writing the chunks one after the other leaves `acc` followed by the
chunks, with the offset at the end again. -/
theorem run_writes (chunks : List (List Byte × (Nat → Byte))) :
    ∀ (ms : memstream) (acc : List Byte), Valid ms → ms.offset = ms.lenp →
      ms.lenp = acc.length → (∀ i, i < acc.length → byteAt ms.cp i = acc[i]?) →
      (∀ c ∈ chunks, c.1.length < INT_LIM) →
      acc.length + (chunks.map (fun c => c.1)).flatten.length + 1 < SIZE_MOD →
      ∃ ms1, run ms (chunks.map writeOp) = some ms1 ∧ Valid ms1 ∧ ms1.offset = ms1.lenp ∧
        ms1.lenp = (acc ++ (chunks.map (fun c => c.1)).flatten).length ∧
        (∀ i, i < (acc ++ (chunks.map (fun c => c.1)).flatten).length →
          byteAt ms1.cp i = (acc ++ (chunks.map (fun c => c.1)).flatten)[i]?) := by
  induction chunks with
  | nil =>
    intro ms acc hv ho hl hb _ _
    exact ⟨ms, rfl, hv, ho, by simpa using hl, by simpa using hb⟩
  | cons c rest ih =>
    intro ms acc hv ho hl hb hlen htot
    simp only [List.map_cons, List.flatten_cons, List.length_append] at htot
    have hc : c.1.length < INT_LIM := hlen c (List.mem_cons_self _ _)
    have hlim : INT_LIM = 2147483648 := rfl
    obtain ⟨ms1, hw, ho1, hl1, hv1, hnew, hold, _⟩ :=
      write_contract ms (srcOf c.1) c.1.length (some c.2) hv hc (by omega) (by omega)
        (fun _ => by simp)
    have hb1 : ∀ i, i < (acc ++ c.1).length → byteAt ms1.cp i = (acc ++ c.1)[i]? := by
      intro i hi
      rw [List.length_append] at hi
      by_cases hia : i < acc.length
      · rw [List.getElem?_append_left hia, ← hb i hia]
        apply hold i (by omega) (capOf_pos_of_valid ms hv i (by omega))
        unfold inRange; omega
      · have hi2 : i - acc.length < c.1.length := by omega
        have := hnew (i - acc.length) hi2
        rw [ho, hl, Nat.add_sub_cancel' (by omega)] at this
        rw [this, List.getElem?_append_right (by omega), List.getElem?_eq_getElem hi2]
        simp [srcOf, List.getElem?_eq_getElem hi2]
    obtain ⟨ms2, hr, hv2, ho2, hl2, hb2⟩ := ih ms1 (acc ++ c.1) hv1 (by omega)
      (by rw [hl1, ho, hl, List.length_append]; omega) hb1
      (fun d hd => hlen d (List.mem_cons_of_mem _ hd))
      (by rw [List.length_append]; omega)
    refine ⟨ms2, ?_, hv2, ho2, ?_, ?_⟩
    · simp only [List.map_cons, run, writeOp, step, hw, Option.map_some']
      exact hr
    · simpa [List.append_assoc] using hl2
    · simpa [List.append_assoc] using hb2

theorem valid_open : Valid open_memstream := by
  refine ⟨by decide, by decide, fun _ => rfl, ?_⟩
  intro b hb
  exact Option.noConfusion hb

theorem seek_set_nat (ms : memstream) (k : Nat) (hk : k < SIZE_MOD) :
    (memstream_seek ms (k : Int) SEEK_SET).1 = { cp := ms.cp, lenp := ms.lenp, offset := k } := by
  unfold memstream_seek
  simp only [if_true]
  rw [toSize_natCast k hk]

theorem getElem?_splice (B C : List Byte) (k i : Nat) (hk : k + C.length ≤ B.length) :
    (B.take k ++ C ++ B.drop (k + C.length))[i]? =
      if k ≤ i ∧ i < k + C.length then C[i - k]? else B[i]? := by
  have hlt : (B.take k).length = k := by rw [List.length_take]; omega
  by_cases h1 : i < k
  · rw [if_neg (by omega), List.append_assoc, List.getElem?_append_left (by omega),
      List.getElem?_take_of_lt h1]
  · by_cases h2 : i < k + C.length
    · rw [if_pos (by omega), List.getElem?_append_left (by rw [List.length_append]; omega),
        List.getElem?_append_right (by omega), hlt]
    · rw [if_neg (by omega), List.getElem?_append_right (by rw [List.length_append]; omega),
        List.length_append, hlt, List.getElem?_drop]
      congr 1
      omega

/-! ## Monotonicity of the length -/

theorem grow_lenp_le (ms ms1 : memstream) (k : Nat) (alloc : Alloc)
    (h : memstream_grow ms k alloc = some ms1) : ms.lenp ≤ ms1.lenp := by
  unfold memstream_grow at h
  by_cases hk : k > ms.lenp
  · rw [if_pos hk] at h
    cases hr : realloc ms.cp (addSize k 1) alloc with
    | none =>
      rw [hr] at h
      simp only [Option.some.injEq] at h
      subst h
      exact Nat.le_refl _
    | some buf =>
      rw [hr] at h
      simp only at h
      cases hm : memset0 buf (ms.lenp + 1) (k - ms.lenp) with
      | none => rw [hm] at h; exact Option.noConfusion h
      | some b1 =>
        rw [hm] at h
        simp only [Option.some.injEq] at h
        subst h
        exact Nat.le_of_lt hk
  · rw [if_neg hk] at h
    simp only [Option.some.injEq] at h
    subst h
    exact Nat.le_refl _

theorem step_lenp_le (ms ms1 : memstream) (op : Op) (h : step ms op = some ms1) :
    ms.lenp ≤ ms1.lenp := by
  cases op with
  | read len alloc =>
    simp only [step, memstream_read] at h
    cases hg : memstream_grow ms (addSize ms.offset (toSize len)) alloc with
    | none => rw [hg] at h; simp at h
    | some m =>
      have hle := grow_lenp_le ms m _ alloc hg
      rw [hg] at h
      simp only at h
      split at h
      · simp at h
      · simp only [Option.map_some', Option.some.injEq] at h
        subst h
        exact hle
  | write buf len alloc =>
    simp only [step, memstream_write] at h
    cases hg : memstream_grow ms (addSize ms.offset (toSize len)) alloc with
    | none => rw [hg] at h; simp at h
    | some m =>
      have hle := grow_lenp_le ms m _ alloc hg
      rw [hg] at h
      simp only at h
      split at h
      · simp at h
      · simp only [Option.map_some', Option.some.injEq] at h
        subst h
        exact hle
  | seek pos whence =>
    simp only [step, memstream_seek, Option.some.injEq] at h
    subst h
    exact Nat.le_refl _

theorem lengths_chain (ops : List Op) :
    ∀ ms : memstream, List.Chain (fun a b => a ≤ b) ms.lenp (lengths ms ops) := by
  induction ops with
  | nil => intro ms; exact List.Chain.nil
  | cons op ops ih =>
    intro ms
    unfold lengths
    cases hs : step ms op with
    | none => exact List.Chain.nil
    | some ms1 => exact List.Chain.cons (step_lenp_le ms ms1 op hs) (ih ms1)

/-- What `memstream_grow` does when it grows a valid state: the length becomes
`newsize`, the bytes above the old length up to the new terminator are zero,
and the bytes of the old allocation up to the old length are kept. -/
theorem grow_contract (ms : memstream) (newsize : Nat) (fresh : Nat → Byte)
    (h : ms.lenp < newsize) (hs : newsize + 1 < SIZE_MOD) :
    ∃ ms1, memstream_grow ms newsize (some fresh) = some ms1 ∧ ms1.lenp = newsize ∧
      ms1.offset = ms.offset ∧ capOf ms1.cp = newsize + 1 ∧
      (∀ i, ms.lenp < i → i ≤ newsize → byteAt ms1.cp i = some 0) ∧
      (∀ i, i ≤ ms.lenp → i < capOf ms.cp → byteAt ms1.cp i = byteAt ms.cp i) ∧
      (∀ i, i ≤ ms.lenp → capOf ms.cp ≤ i → byteAt ms1.cp i = some (fresh i)) := by
  refine ⟨_, grow_some ms newsize fresh h hs, rfl, rfl, rfl, ?_, ?_, ?_⟩
  · intro i h1 h2
    simp only [grown, byteAt]
    rw [if_pos (by omega), if_pos (by omega)]
  · intro i h1 h2
    simp only [grown, byteAt]
    rw [if_pos (by omega), if_neg (by omega)]
    cases hcp : ms.cp with
    | none => rw [hcp] at h2; simp [capOf] at h2
    | some b => rw [hcp] at h2; simp only [capOf] at h2; simp [carried, h2]
  · intro i h1 h2
    simp only [grown, byteAt]
    rw [if_pos (by omega), if_neg (by omega)]
    cases hcp : ms.cp with
    | none => simp [carried]
    | some b =>
      rw [hcp] at h2
      simp only [capOf] at h2
      simp only [carried]
      rw [if_neg (by omega)]

/-! ## Claims -/

/-- Claim C1, code defect: `memstream_write` keeps the extent left after the
offset, `*lenp - offset`, in the `int` variable `tocopy`.  On a valid stream of
`2^32` bytes with the offset at the start that difference truncates to `0`:
whatever the allocator does, a write of one byte copies nothing, leaves the
state as it was and returns `0`, not `1`.  On a valid stream of `2^31` bytes the
difference truncates to `INT_MIN` and the copy is requested with a size far
beyond the buffer (undefined behaviour). -/
theorem write_truncates_large_extent :
    Valid hugeStream ∧ Valid twoGiBStream ∧
      ∀ (buf : Nat → Byte) (alloc : Alloc),
        memstream_write hugeStream buf 1 alloc = some (hugeStream, 0) ∧
        memstream_write twoGiBStream buf 1 alloc = none := by
  refine ⟨⟨by decide, by decide, ?_, ?_⟩, ⟨by decide, by decide, ?_, ?_⟩, ?_⟩
  · intro h; exact Option.noConfusion h
  · intro b hb
    simp only [hugeStream, Option.some.injEq] at hb
    subst hb
    decide
  · intro h; exact Option.noConfusion h
  · intro b hb
    simp only [twoGiBStream, Option.some.injEq] at hb
    subst hb
    decide
  · intro buf alloc
    have hg : memstream_grow hugeStream (addSize hugeStream.offset (toSize 1)) alloc
        = some hugeStream := grow_noop _ _ _ (by decide)
    have hg2 : memstream_grow twoGiBStream (addSize twoGiBStream.offset (toSize 1)) alloc
        = some twoGiBStream := grow_noop _ _ _ (by decide)
    unfold memstream_write
    rw [hg, hg2]
    exact ⟨rfl, rfl⟩

/-- Claim C2: byte strings written one after the other to a freshly opened stream,
every reallocation succeeding (each string short enough for the `int` length
of one call, the total and its terminator within `size_t`): the final length is
the sum of the lengths, the first `length` bytes are the concatenation, and
closing leaves exactly that buffer and length in the caller's slots. -/
theorem sequential_writes_concat (chunks : List (List Byte × (Nat → Byte)))
    (hlen : ∀ c ∈ chunks, c.1.length < INT_LIM)
    (htot : (chunks.map (fun c => c.1)).flatten.length + 1 < SIZE_MOD) :
    ∃ ms, run open_memstream (chunks.map writeOp) = some ms ∧
      ms.lenp = ((chunks.map (fun c => c.1)).map List.length).sum ∧
      contents ms = some (chunks.map (fun c => c.1)).flatten ∧
      memstream_close ms = ((ms.cp, ms.lenp), 0) := by
  obtain ⟨ms, hr, _, _, hl, hb⟩ := run_writes chunks open_memstream [] valid_open rfl rfl
    (fun i hi => absurd hi (by simp)) hlen (by simpa using htot)
  simp only [List.nil_append] at hl hb
  refine ⟨ms, hr, ?_, contents_of_bytes ms _ hl hb, rfl⟩
  rw [hl, List.length_flatten]

/-- Witness for C2: the strings `[1,2]`, `[]` and `[3]`. -/
theorem sequential_writes_concat_witness :
    ∃ ms, run open_memstream (List.map writeOp [([1, 2], junk), ([], junk), ([3], junk)])
        = some ms ∧
      ms.lenp = (List.map List.length
        (List.map (fun c => c.1) [(([1, 2] : List Byte), junk), ([], junk), ([3], junk)])).sum ∧
      contents ms = some
        (List.map (fun c => c.1) [(([1, 2] : List Byte), junk), ([], junk), ([3], junk)]).flatten ∧
      memstream_close ms = ((ms.cp, ms.lenp), 0) :=
  sequential_writes_concat [([1, 2], junk), ([], junk), ([3], junk)] (by decide) (by decide)

/-- Claim C3: open a stream, write `B`, seek to offset `k` from the start and write
`C`, where `k + len(C) <= len(B)` (`B` short enough for the `int` length of one
call; the second write needs no reallocation, so its allocator outcome is
arbitrary): the length is `len(B)` and the buffer is `B` with the bytes
`k .. k+len(C)-1` replaced by `C`. -/
theorem overwrite_in_place (B C : List Byte) (k : Nat) (fresh : Nat → Byte) (alloc : Alloc)
    (hB : B.length < INT_LIM) (hk : k + C.length ≤ B.length) :
    ∃ ms, run open_memstream
        [writeOp (B, fresh), Op.seek (k : Int) SEEK_SET,
          Op.write (srcOf C) (C.length : Int) alloc] = some ms ∧
      ms.lenp = B.length ∧
      contents ms = some (B.take k ++ C ++ B.drop (k + C.length)) := by
  have hlim : INT_LIM = 2147483648 := rfl
  have hmod : SIZE_MOD = 18446744073709551616 := rfl
  obtain ⟨ms1, hw1, ho1, hl1, hv1, hnew1, _, _⟩ :=
    write_contract open_memstream (srcOf B) B.length (some fresh) valid_open hB
      (by simp only [open_memstream]; omega) (by simp only [open_memstream]; omega)
      (fun _ => by simp)
  simp only [open_memstream, Nat.zero_add, Nat.zero_max] at ho1 hl1 hnew1
  have hseek := seek_set_nat ms1 k (by omega)
  have hv2 : Valid ⟨ms1.cp, ms1.lenp, k⟩ := by
    obtain ⟨_, h2, h3, h4⟩ := hv1
    exact ⟨by (try simp only []); omega, h2, h3, h4⟩
  obtain ⟨ms2, hw2, _, hl2, _, hnew2, hold2, _⟩ :=
    write_contract ⟨ms1.cp, ms1.lenp, k⟩ (srcOf C) C.length alloc hv2 (by omega)
      (by (try simp only []); omega) (by (try simp only []); omega)
      (fun h => by simp only [] at h; omega)
  simp only [] at hl2 hnew2 hold2
  have hlen : ms2.lenp = B.length := by omega
  refine ⟨ms2, ?_, hlen, ?_⟩
  · simp only [run, step, writeOp, hw1, Option.map_some', hseek, hw2]
  · apply contents_of_bytes
    · rw [hlen]
      simp only [List.length_append, List.length_take, List.length_drop]
      omega
    · intro i hi
      have hiB : i < B.length := by
        simp only [List.length_append, List.length_take, List.length_drop] at hi
        omega
      rw [getElem?_splice B C k i hk]
      by_cases hr : k ≤ i ∧ i < k + C.length
      · rw [if_pos hr]
        have := hnew2 (i - k) (by omega)
        rw [Nat.add_sub_cancel' hr.1] at this
        rw [this]
        simp [srcOf, List.getElem?_eq_getElem (show i - k < C.length by omega)]
      · rw [if_neg hr]
        have h1 := hold2 i (by omega)
          (capOf_pos_of_valid ms1 hv1 i (by omega)) (by unfold inRange; exact hr)
        have h2 := hnew1 i hiB
        rw [h1, h2]
        simp [srcOf, List.getElem?_eq_getElem hiB]

/-- Witness for C3: `B = [1,2,3,4,5]`, `k = 2`, `C = [9,9]`; the resulting
buffer is `[1,2,9,9,5]`, of length 5. -/
theorem overwrite_in_place_witness :
    (List.take 2 ([1, 2, 3, 4, 5] : List Byte) ++ [9, 9] ++ List.drop (2 + 2) [1, 2, 3, 4, 5]
        = [1, 2, 9, 9, 5]) ∧
      ∃ ms, run open_memstream
          [writeOp ([1, 2, 3, 4, 5], junk), Op.seek ((2 : Nat) : Int) SEEK_SET,
            Op.write (srcOf [9, 9]) ((([9, 9] : List Byte).length : Nat) : Int) none] = some ms ∧
        ms.lenp = ([1, 2, 3, 4, 5] : List Byte).length ∧
        contents ms = some (List.take 2 ([1, 2, 3, 4, 5] : List Byte) ++ [9, 9] ++
          List.drop (2 + ([9, 9] : List Byte).length) [1, 2, 3, 4, 5]) :=
  ⟨by decide, overwrite_in_place [1, 2, 3, 4, 5] [9, 9] 2 junk none (by decide) (by decide)⟩

/-- Claim C4: open a stream, write the non-empty string `B`, seek to `p >= len(B)`
from the start and write the non-empty string `C`, both reallocations
succeeding (`B` and `C` short enough for an `int` length, the final size and
its terminator within `size_t`): the length is `p + len(C)`, and
the buffer is `B`, then `p - len(B)` zero bytes, then `C`. -/
theorem seek_gap_zero_filled (B C : List Byte) (p : Nat) (f1 f2 : Nat → Byte)
    (hB0 : B ≠ []) (hC0 : C ≠ []) (hp : B.length ≤ p)
    (hB : B.length < INT_LIM) (hC : C.length < INT_LIM)
    (hsz : p + C.length + 1 < SIZE_MOD) :
    ∃ ms, run open_memstream
        [writeOp (B, f1), Op.seek (p : Int) SEEK_SET, writeOp (C, f2)] = some ms ∧
      ms.lenp = p + C.length ∧
      contents ms = some (B ++ List.replicate (p - B.length) 0 ++ C) := by
  have hlim : INT_LIM = 2147483648 := rfl
  have hmod : SIZE_MOD = 18446744073709551616 := rfl
  have hBpos : 0 < B.length := List.length_pos.mpr hB0
  have hCpos : 0 < C.length := List.length_pos.mpr hC0
  obtain ⟨ms1, hw1, ho1, hl1, hv1, hnew1, hold1, hzero1⟩ :=
    write_contract open_memstream (srcOf B) B.length (some f1) valid_open hB
      (by simp only [open_memstream]; omega) (by simp only [open_memstream]; omega)
      (fun _ => by simp)
  have hterm1 : byteAt ms1.cp ms1.lenp = some 0 :=
    write_terminator open_memstream ms1 B.length hl1 hold1 hzero1
      (Or.inl (by simp only [open_memstream]; omega))
  simp only [open_memstream, Nat.zero_add, Nat.zero_max] at ho1 hl1 hnew1
  have hseek := seek_set_nat ms1 p (by omega)
  have hv2 : Valid ⟨ms1.cp, ms1.lenp, p⟩ := by
    obtain ⟨_, h2, h3, h4⟩ := hv1
    exact ⟨by (try simp only []); omega, h2, h3, h4⟩
  obtain ⟨ms2, hw2, _, hl2, _, hnew2, hold2, hzero2⟩ :=
    write_contract ⟨ms1.cp, ms1.lenp, p⟩ (srcOf C) C.length (some f2) hv2 hC
      (by (try simp only []); omega) (by (try simp only []); omega)
      (fun _ => by simp)
  simp only [] at hl2 hnew2 hold2 hzero2
  have hlen : ms2.lenp = p + C.length := by omega
  refine ⟨ms2, ?_, hlen, ?_⟩
  · simp only [run, step, writeOp, hw1, Option.map_some', hseek, hw2]
  · apply contents_of_bytes
    · rw [hlen]
      simp only [List.length_append, List.length_replicate]
      omega
    · intro i hi
      simp only [List.length_append, List.length_replicate] at hi
      by_cases h1 : i < B.length
      · -- inside `B`
        rw [List.append_assoc, List.getElem?_append_left h1]
        have e1 := hold2 i (by omega)
          (capOf_pos_of_valid ms1 hv1 i (by omega)) (by unfold inRange; omega)
        rw [e1, hnew1 i h1]
        simp [srcOf, List.getElem?_eq_getElem h1]
      · by_cases h2 : i < p
        · -- inside the gap
          have hin : i < (B ++ List.replicate (p - B.length) (0 : Byte)).length := by
            simp only [List.length_append, List.length_replicate]
            omega
          rw [List.getElem?_append_left hin, List.getElem?_append_right (by omega),
            List.getElem?_replicate_of_lt (by omega)]
          by_cases h3 : i = B.length
          · have hcap : ms1.lenp < capOf ms1.cp := by
              cases hcp : ms1.cp with
              | none => rw [hcp] at hterm1; simp [byteAt] at hterm1
              | some b =>
                obtain ⟨_, _, _, h4⟩ := hv1
                have := h4 b hcp
                simp only [capOf]; omega
            have e1 := hold2 i (by omega) (by omega) (by unfold inRange; omega)
            rw [e1, h3, ← hl1, hterm1]
          · exact hzero2 i (by omega) (by omega) (by unfold inRange; omega)
        · -- inside `C`
          have hout : (B ++ List.replicate (p - B.length) (0 : Byte)).length ≤ i := by
            simp only [List.length_append, List.length_replicate]
            omega
          rw [List.getElem?_append_right hout]
          simp only [List.length_append, List.length_replicate]
          have hic : i - (B.length + (p - B.length)) = i - p := by omega
          have hlt : i - p < C.length := by omega
          have := hnew2 (i - p) hlt
          rw [Nat.add_sub_cancel' (by omega)] at this
          rw [this, hic]
          simp [srcOf, List.getElem?_eq_getElem hlt]

/-- Witness for C4: `B = "hello"`, `p = 10`, `C = "X"`; the buffer the theorem
gives is `hello`, five zero bytes, `X`, of length 11. -/
theorem seek_gap_zero_filled_witness :
    ((([104, 101, 108, 108, 111] : List Byte) ++ List.replicate (10 - 5) 0 ++ [88]).length = 11) ∧
      ∃ ms, run open_memstream
          [writeOp ([104, 101, 108, 108, 111], junk), Op.seek ((10 : Nat) : Int) SEEK_SET,
            writeOp ([88], junk)] = some ms ∧
        ms.lenp = 10 + ([88] : List Byte).length ∧
        contents ms = some (([104, 101, 108, 108, 111] : List Byte) ++
          List.replicate (10 - ([104, 101, 108, 108, 111] : List Byte).length) 0 ++ [88]) :=
  ⟨by decide, seek_gap_zero_filled [104, 101, 108, 108, 111] [88] 10 junk junk
    (by decide) (by decide) (by decide) (by decide) (by decide) (by decide)⟩

/-- Claim C5, code defect: on a freshly opened stream, seek to offset 2, write the
byte `7`, seek back to 0 and read the whole length (3 bytes), the allocator
handing out memory filled with `0xAA`.  The read returns `[0xAA, 0, 7]`: the
unwritten byte at index 0 is what the allocator left there, not zero, because
the first `memstream_grow` zeroes from index `lenp + 1 = 1` on. -/
theorem gap_before_first_write_not_zeroed :
    (run open_memstream [Op.seek 2 SEEK_SET, writeOp ([7], junk)]).bind
      (fun ms => readBack ms none) = some [170, 0, 7] := by
  decide

/-- Claim C6, code defect: `memstream_grow` on the freshly opened state (no buffer,
length 0) with `new_size = 1`, the allocator handing out memory filled with
`0xAA`: the length becomes 1 and the new terminator at index 1 is zero, but the
byte at index 0, the old terminator position, is still `0xAA`. -/
theorem grow_fresh_leaves_first_byte :
    (memstream_grow open_memstream 1 (some junk)).map
      (fun ms => (ms.lenp, byteAt ms.cp 0, byteAt ms.cp 1)) = some (1, some 170, some 0) := by
  decide

/-- Claim C7: `memstream_grow` with `new_size <= length` returns the state as it was,
and along every sequence of read, write and seek callbacks, whatever each
allocation does, the length after each callback is at least the length before
it. -/
theorem growth_monotone (ms : memstream) :
    (∀ (newsize : Nat) (alloc : Alloc), newsize ≤ ms.lenp →
        memstream_grow ms newsize alloc = some ms) ∧
      ∀ ops : List Op, List.Chain (fun a b => a ≤ b) ms.lenp (lengths ms ops) :=
  ⟨fun newsize alloc h => grow_noop ms newsize alloc h, fun ops => lengths_chain ops ms⟩

/-- Witness for C7: the 4 GiB stream, a grow request of 5 bytes with a failing
allocator, and a read, a seek and a write in sequence. -/
theorem growth_monotone_witness :
    memstream_grow hugeStream 5 none = some hugeStream ∧
      List.Chain (fun a b => a ≤ b) hugeStream.lenp
        (lengths hugeStream
          [Op.read 4 (some junk), Op.seek (-1) SEEK_END, Op.write (srcOf [1, 2]) 2 none]) :=
  ⟨(growth_monotone hugeStream).1 5 none (by decide), (growth_monotone hugeStream).2 _⟩

/-- Claim C8, code defect: `memstream_read` keeps the extent left after the
offset in the `int` variable `tocopy`, as `memstream_write` does.  On the valid
stream of `2^32` bytes with the offset at the start, a read of one byte copies
nothing, leaves the offset at 0 and returns `0`, where `min(n, L - o) = 1`.  On
the valid stream of `2^31` bytes the copy is requested with a size far beyond
the buffer (undefined behaviour). -/
theorem read_truncates_large_extent :
    ∀ alloc : Alloc,
      memstream_read hugeStream 1 alloc = some (hugeStream, [], 0) ∧
      memstream_read twoGiBStream 1 alloc = none := by
  intro alloc
  have hg : memstream_grow hugeStream (addSize hugeStream.offset (toSize 1)) alloc
      = some hugeStream := grow_noop _ _ _ (by decide)
  have hg2 : memstream_grow twoGiBStream (addSize twoGiBStream.offset (toSize 1)) alloc
      = some twoGiBStream := grow_noop _ _ _ (by decide)
  unfold memstream_read
  rw [hg, hg2]
  exact ⟨rfl, rfl⟩

/-- Claim C9, counterexample: on the stream holding `[1, 2]`, whose offset is at
the end of the extent, a read of 3 bytes with a successful reallocation grows
the length to 5 and returns 3 (three zero bytes), not 0. -/
theorem read_at_end_returns_request :
    twoByteStream.offset = twoByteStream.lenp ∧
      (memstream_read twoByteStream 3 (some junk)).map (fun r => (r.2.2, r.2.1, r.1.lenp))
        = some (3, [0, 0, 0], 5) := by
  decide

/-- Claim C9, amended: on a valid state whose offset equals the current length, a
read of `n > 0` bytes (`n` an `int`, the grown size and its terminator within
`size_t`) grows the length by `n`, delivers `n` bytes and returns `n` when the
reallocation succeeds; when the reallocation fails it delivers nothing, leaves
the state as it was and returns `0`. -/
theorem read_at_end_grows (ms : memstream) (n : Nat) (hv : Valid ms)
    (hend : ms.offset = ms.lenp) (hpos : 0 < n) (hn : n < INT_LIM)
    (hs : ms.lenp + n + 1 < SIZE_MOD) :
    (∀ fresh : Nat → Byte, ∃ ms1 out,
        memstream_read ms (n : Int) (some fresh) = some (ms1, out, (n : Int)) ∧
        ms1.lenp = ms.lenp + n ∧ ms1.offset = ms.lenp + n ∧ out.length = n) ∧
      memstream_read ms (n : Int) none = some (ms, [], 0) := by
  have hlim : INT_LIM = 2147483648 := rfl
  have hmod : SIZE_MOD = 18446744073709551616 := rfl
  constructor
  · intro fresh
    obtain ⟨ms1, out, hr, ho, hl, _, hlen, _⟩ :=
      read_contract ms n (some fresh) hv hn (by omega) (by omega) (fun _ => by simp)
    exact ⟨ms1, out, hr, by omega, by omega, hlen⟩
  · obtain ⟨cp, L, o⟩ := ms
    simp only at hend hs
    subst hend
    have e1 : subSize o o = 0 := by
      rw [subSize_le _ _ (Nat.le_refl _) (by omega)]; omega
    have e2 : toInt 0 = 0 := toInt_small 0 (by decide)
    have e3 : (if (n : Int) < 0 then (n : Int) else 0) = 0 := by
      rw [if_neg (by omega)]
    have e4 : toSize 0 = 0 := toSize_natCast 0 (by decide)
    have e5 : addSize o 0 = o := addSize_small _ _ (by omega)
    unfold memstream_read
    simp only [grow_fail, e1, e2, e3, e4, e5, memcpyOut, if_true]

/-- Witness for C9, amended: the stream holding `[1, 2]`, a read of 3 bytes. -/
theorem read_at_end_grows_witness :
    (∀ fresh : Nat → Byte, ∃ ms1 out,
        memstream_read twoByteStream ((3 : Nat) : Int) (some fresh)
          = some (ms1, out, ((3 : Nat) : Int)) ∧
        ms1.lenp = twoByteStream.lenp + 3 ∧ ms1.offset = twoByteStream.lenp + 3 ∧
        out.length = 3) ∧
      memstream_read twoByteStream ((3 : Nat) : Int) none = some (twoByteStream, [], 0) :=
  read_at_end_grows twoByteStream 3
    ⟨by decide, by decide, fun h => Option.noConfusion h,
      fun b hb => by
        simp only [twoByteStream, Option.some.injEq] at hb
        subst hb
        decide⟩
    rfl (by decide) (by decide) (by decide)

/-- Claim C10: `memstream_seek` with `whence` one of from-start, from-current and
from-end, for a position whose resulting offset (`pos`, `offset + pos`,
`length + pos`) is non-negative and representable as an `fpos_t`: the offset
becomes that value, which is also the value returned, whether or not it
exceeds the length, and the buffer and the length are left as they were. -/
theorem seek_contract (ms : memstream) (pos whence : Int)
    (hw : whence = SEEK_SET ∨ whence = SEEK_CUR ∨ whence = SEEK_END)
    (h0 : 0 ≤ specSeekOffset ms pos whence)
    (h1 : specSeekOffset ms pos whence < (FPOS_LIM : Int)) :
    memstream_seek ms pos whence =
      ({ cp := ms.cp, lenp := ms.lenp, offset := (specSeekOffset ms pos whence).toNat },
        specSeekOffset ms pos whence) := by
  have hlim : FPOS_LIM = 9223372036854775808 := rfl
  have hmod : SIZE_MOD = 18446744073709551616 := rfl
  have key : ∀ off : Nat, (off : Int) = specSeekOffset ms pos whence →
      (({ cp := ms.cp, lenp := ms.lenp, offset := off } : memstream), toFpos off) =
        ({ cp := ms.cp, lenp := ms.lenp, offset := (specSeekOffset ms pos whence).toNat },
          specSeekOffset ms pos whence) := by
    intro off hoff
    have e1 : (specSeekOffset ms pos whence).toNat = off := by omega
    have e2 : toFpos off = specSeekOffset ms pos whence := by
      unfold toFpos
      have : off % SIZE_MOD = off := Nat.mod_eq_of_lt (by omega)
      rw [this, if_pos (by omega), hoff]
    rw [e1, e2]
  unfold memstream_seek
  apply key
  rcases hw with hw | hw | hw
  · subst hw
    simp only [specSeekOffset, if_true] at h0 h1 ⊢
    unfold toSize SIZE_MOD
    omega
  · subst hw
    have hne : ¬ (SEEK_CUR = SEEK_SET) := by decide
    simp only [specSeekOffset, if_neg hne, if_true] at h0 h1 ⊢
    unfold addSize toSize SIZE_MOD
    omega
  · subst hw
    have hne : ¬ (SEEK_END = SEEK_SET) := by decide
    have hne2 : ¬ (SEEK_END = SEEK_CUR) := by decide
    simp only [specSeekOffset, if_neg hne, if_neg hne2, if_true] at h0 h1 ⊢
    unfold addSize toSize SIZE_MOD
    omega

/-- Witness for C10: from the end of the stream holding `[1, 2]`, a seek of 8
bytes past the end moves the offset to 10 and returns 10; the length stays 2. -/
theorem seek_contract_witness :
    memstream_seek twoByteStream 8 SEEK_END =
      ({ cp := twoByteStream.cp, lenp := twoByteStream.lenp,
         offset := (specSeekOffset twoByteStream 8 SEEK_END).toNat },
        specSeekOffset twoByteStream 8 SEEK_END) :=
  seek_contract twoByteStream 8 SEEK_END (Or.inr (Or.inr rfl)) (by decide) (by decide)

/-! ## Allocation failure and the terminator invariant -/

theorem toSize_lt (x : Int) : toSize x < SIZE_MOD := by
  unfold toSize SIZE_MOD
  omega

theorem addSize_lt (a b : Nat) : addSize a b < SIZE_MOD := by
  unfold addSize
  exact Nat.mod_lt _ (by decide)

/-- The count handed to `memcpy` never reaches the terminator: whenever the
copy of a non-negative `int` request stays inside a buffer of `L + 1` bytes and
is not empty, it ends at or before index `L`. -/
theorem copy_below_terminator (o L : Nat) (len : Int) (ho : o < SIZE_MOD) (hL : L < SIZE_MOD)
    (h0 : 0 ≤ len) (h1 : len < (INT_LIM : Int))
    (hfit : o + toSize (if len < toInt (subSize L o) then len else toInt (subSize L o)) ≤ L + 1)
    (hne : toSize (if len < toInt (subSize L o) then len else toInt (subSize L o)) ≠ 0) :
    o + toSize (if len < toInt (subSize L o) then len else toInt (subSize L o)) ≤ L := by
  have hd : (o ≤ L ∧ subSize L o = L - o) ∨
      (L < o ∧ subSize L o = L + 18446744073709551616 - o) := by
    unfold subSize SIZE_MOD at *
    omega
  have ha : (toInt (subSize L o) = ((subSize L o % 4294967296 : Nat) : Int) ∧
        subSize L o % 4294967296 < 2147483648) ∨
      (toInt (subSize L o) = ((subSize L o % 4294967296 : Nat) : Int) - 4294967296 ∧
        2147483648 ≤ subSize L o % 4294967296) := by
    unfold toInt INT_MOD INT_LIM
    by_cases hc : subSize L o % 4294967296 < 2147483648
    · left; rw [if_pos hc]; exact ⟨rfl, hc⟩
    · right; rw [if_neg hc]; exact ⟨by push_cast; rfl, by omega⟩
  generalize subSize L o = d at hd ha hfit hne ⊢
  generalize toInt d = a at ha hfit hne ⊢
  unfold SIZE_MOD at ho hL
  unfold INT_LIM at h1
  by_cases hc : len < a
  · rw [if_pos hc] at hfit hne ⊢
    unfold toSize SIZE_MOD at hfit hne ⊢
    omega
  · rw [if_neg hc] at hfit hne ⊢
    unfold toSize SIZE_MOD at hfit hne ⊢
    omega

theorem terminated_open : Terminated open_memstream :=
  ⟨by decide, by decide, rfl⟩

theorem grow_terminated (ms ms1 : memstream) (k : Nat) (alloc : Alloc)
    (hinv : Terminated ms) (h : memstream_grow ms k alloc = some ms1) :
    Terminated ms1 ∧ ms1.offset = ms.offset := by
  unfold memstream_grow at h
  by_cases hk : k > ms.lenp
  · rw [if_pos hk] at h
    cases alloc with
    | none =>
      simp only [realloc, Option.some.injEq] at h
      subst h
      exact ⟨hinv, rfl⟩
    | some fresh =>
      simp only [realloc, memset0] at h
      by_cases hc : ms.lenp + 1 + (k - ms.lenp) ≤ addSize k 1
      · rw [if_pos hc] at h
        simp only [Option.some.injEq] at h
        subst h
        have hlt : addSize k 1 < SIZE_MOD := addSize_lt k 1
        have hle : addSize k 1 ≤ k + 1 := by unfold addSize; exact Nat.mod_le _ _
        refine ⟨⟨hinv.1, ?_, ?_, ?_⟩, rfl⟩
        · (try simp only []); omega
        · (try simp only []); omega
        · simp only []
          rw [if_pos (by omega)]
      · rw [if_neg hc] at h
        exact Option.noConfusion h
  · rw [if_neg hk] at h
    simp only [Option.some.injEq] at h
    subst h
    exact ⟨hinv, rfl⟩

theorem memcpyIn_terminated (cp cp2 : Option Block) (o L n : Nat) (src : Nat → Byte)
    (hinv : Terminated ⟨cp, L, o⟩) (hcopy : memcpyIn cp o src n = some cp2)
    (hbelow : n ≠ 0 → o + n ≤ capOf cp → o + n ≤ L) (o2 : Nat) (ho2 : o2 < SIZE_MOD) :
    Terminated ⟨cp2, L, o2⟩ := by
  obtain ⟨_, hL, hcp⟩ := hinv
  unfold memcpyIn at hcopy
  by_cases hz : n = 0
  · rw [if_pos hz] at hcopy
    simp only [Option.some.injEq] at hcopy
    subst hcopy
    exact ⟨ho2, hL, hcp⟩
  · rw [if_neg hz] at hcopy
    cases cp with
    | none => exact Option.noConfusion hcopy
    | some b =>
      simp only at hcopy hcp
      by_cases hc : o + n ≤ b.cap
      · rw [if_pos hc] at hcopy
        simp only [Option.some.injEq] at hcopy
        subst hcopy
        have hb := hbelow hz (by simpa [capOf] using hc)
        refine ⟨ho2, hL, hcp.1, ?_⟩
        simp only []
        rw [if_neg (by omega)]
        exact hcp.2
      · rw [if_neg hc] at hcopy
        exact Option.noConfusion hcopy

theorem step_terminated (ms ms1 : memstream) (op : Op) (hop : op.wellTyped)
    (hinv : Terminated ms) (h : step ms op = some ms1) : Terminated ms1 := by
  cases op with
  | read len alloc =>
    simp only [step, memstream_read] at h
    cases hg : memstream_grow ms (addSize ms.offset (toSize len)) alloc with
    | none => rw [hg] at h; simp at h
    | some m =>
      obtain ⟨hm, _⟩ := grow_terminated ms m _ alloc hinv hg
      rw [hg] at h
      simp only at h
      split at h
      · simp at h
      · simp only [Option.map_some', Option.some.injEq] at h
        subst h
        exact ⟨addSize_lt _ _, hm.2.1, hm.2.2⟩
  | write buf len alloc =>
    simp only [step, memstream_write] at h
    cases hg : memstream_grow ms (addSize ms.offset (toSize len)) alloc with
    | none => rw [hg] at h; simp at h
    | some m =>
      obtain ⟨hm, _⟩ := grow_terminated ms m _ alloc hinv hg
      rw [hg] at h
      simp only at h
      split at h
      · simp at h
      · rename_i cp2 hcopy
        simp only [Option.map_some', Option.some.injEq] at h
        subst h
        apply memcpyIn_terminated m.cp cp2 m.offset m.lenp _ buf hm hcopy _ _ (addSize_lt _ _)
        intro hne hfit
        have hcap : capOf m.cp = m.lenp + 1 := by
          obtain ⟨_, _, hcp⟩ := hm
          cases hmc : m.cp with
          | none =>
            rw [hmc] at hfit
            simp only [capOf] at hfit
            omega
          | some b =>
            rw [hmc] at hcp
            simp only [capOf]
            exact hcp.1
        rw [hcap] at hfit
        exact copy_below_terminator m.offset m.lenp len hm.1 hm.2.1 hop.1 hop.2 hfit hne
  | seek pos whence =>
    simp only [step, memstream_seek, Option.some.injEq] at h
    subst h
    refine ⟨?_, hinv.2.1, hinv.2.2⟩
    simp only []
    split
    · exact toSize_lt _
    · split
      · exact addSize_lt _ _
      · split
        · exact addSize_lt _ _
        · exact hinv.1

theorem run_terminated (ops : List Op) :
    ∀ ms ms1 : memstream, (∀ op ∈ ops, op.wellTyped) → Terminated ms →
      run ms ops = some ms1 → Terminated ms1 := by
  induction ops with
  | nil =>
    intro ms ms1 _ hinv h
    simp only [run, Option.some.injEq] at h
    subst h
    exact hinv
  | cons op ops ih =>
    intro ms ms1 hops hinv h
    unfold run at h
    cases hs : step ms op with
    | none => rw [hs] at h; exact Option.noConfusion h
    | some m =>
      rw [hs] at h
      exact ih m ms1 (fun o ho => hops o (List.mem_cons_of_mem _ ho))
        (step_terminated ms m op (hops op (List.mem_cons_self _ _)) hinv hs) h

/-- What a failed reallocation leaves of a transfer when the offset is inside
the extent: `memstream_write` copies `min(n, L - o)` bytes, returns that count
and keeps the buffer capacity and the length. -/
theorem write_alloc_fail (ms : memstream) (buf : Nat → Byte) (n : Nat)
    (hv : Valid ms) (hn : n < INT_LIM) (ho : ms.offset ≤ ms.lenp)
    (hfit : ms.lenp < ms.offset + INT_LIM) :
    ∃ ms1, memstream_write ms buf (n : Int) none
        = some (ms1, ((min n (ms.lenp - ms.offset) : Nat) : Int)) ∧
      ms1.lenp = ms.lenp ∧ capOf ms1.cp = capOf ms.cp ∧
      ms1.offset = ms.offset + min n (ms.lenp - ms.offset) := by
  obtain ⟨cp, L, o⟩ := ms
  obtain ⟨hv1, hv2, hv3, hv4⟩ := hv
  simp only at hv1 hv2 hv3 hv4 ho hfit
  have hlim : INT_LIM = 2147483648 := rfl
  have hmod : SIZE_MOD = 18446744073709551616 := rfl
  have e3 : subSize L o = L - o := subSize_le _ _ ho hv2
  have e4 : toInt (L - o) = ((L - o : Nat) : Int) := toInt_small _ (by omega)
  have e5 : (if (n : Int) < ((L - o : Nat) : Int) then (n : Int) else ((L - o : Nat) : Int))
      = ((min n (L - o) : Nat) : Int) := by
    split <;> omega
  have e6 : toSize ((min n (L - o) : Nat) : Int) = min n (L - o) :=
    toSize_natCast _ (by omega)
  have e7 : addSize o (min n (L - o)) = o + min n (L - o) := addSize_small _ _ (by omega)
  unfold memstream_write
  simp only [grow_fail, e3, e4, e5, e6, e7]
  unfold memcpyIn
  by_cases hz : min n (L - o) = 0
  · rw [if_pos hz]
    exact ⟨_, rfl, rfl, rfl, rfl⟩
  · rw [if_neg hz]
    cases cp with
    | none => have := hv3 rfl; omega
    | some b =>
      have hb := hv4 b rfl
      simp only []
      rw [if_pos (by omega)]
      exact ⟨_, rfl, rfl, rfl, rfl⟩

/-- Claim C11, code defect: on the stream holding `[1, 2]` after a seek to
offset 5, a write or a read of one byte whose reallocation fails computes the
count `tocopy = (int)(2 - 5) = -3` and hands it to `memcpy`, which is asked for
`2^64 - 3` bytes, far outside the 3-byte buffer (undefined behaviour): the
transfer is neither between `0` and `n` nor inside the extent. -/
theorem alloc_failure_past_end :
    Valid pastEndStream ∧ pastEndStream.lenp = 2 ∧ pastEndStream.offset = 5 ∧
      toInt (subSize pastEndStream.lenp pastEndStream.offset) = -3 ∧
      toSize (-3) = 18446744073709551613 ∧
      (∀ buf : Nat → Byte, memstream_write pastEndStream buf 1 none = none) ∧
      memstream_read pastEndStream 1 none = none := by
  refine ⟨⟨by decide, by decide, ?_, ?_⟩, rfl, rfl, by decide, by decide, ?_, ?_⟩
  · intro h; exact Option.noConfusion h
  · intro b hb
    simp only [pastEndStream, memstream_seek, twoByteStream, Option.some.injEq] at hb
    subst hb
    decide
  · intro buf
    unfold memstream_write
    rw [grow_fail]
    rfl
  · unfold memstream_read
    rw [grow_fail]
    rfl

/-- Claim C12, counterexample: the state `open_memstream` produces has no
buffer at all: its capacity is `0`, below `length + 1 = 1`, and there is no
byte at index `length`. -/
theorem fresh_stream_has_no_buffer :
    run open_memstream [] = some open_memstream ∧ capOf open_memstream.cp = 0 ∧
      ¬ (open_memstream.lenp + 1 ≤ capOf open_memstream.cp) ∧
      byteAt open_memstream.cp open_memstream.lenp = none :=
  ⟨rfl, rfl, by decide, rfl⟩

/-- Claim C12, amended: in every state reached from `open_memstream` by read,
write and seek callbacks whose byte counts are non-negative `int`s, either
there is still no buffer and the length is 0, or the buffer has at least
`length + 1` bytes and the byte at index `length` is zero. -/
theorem terminator_invariant (ops : List Op) (ms : memstream)
    (hops : ∀ op ∈ ops, op.wellTyped) (h : run open_memstream ops = some ms) :
    (ms.cp = none ∧ ms.lenp = 0) ∨
      (ms.lenp + 1 ≤ capOf ms.cp ∧ byteAt ms.cp ms.lenp = some 0) := by
  obtain ⟨_, _, hcp⟩ := run_terminated ops open_memstream ms hops terminated_open h
  cases hc : ms.cp with
  | none =>
    rw [hc] at hcp
    exact Or.inl ⟨rfl, hcp⟩
  | some b =>
    rw [hc] at hcp
    right
    simp only [capOf, byteAt]
    rw [if_pos (by omega), hcp.2]
    exact ⟨by omega, rfl⟩

/-- Witness for C12, amended: write `[1, 2]`, seek 3 bytes past the end, read 4
bytes with a failing allocator ahead of a successful write of `[7]`. -/
theorem terminator_invariant_witness :
    ∃ ms, run open_memstream
        [writeOp ([1, 2], junk), Op.seek 3 SEEK_END, writeOp ([7], junk),
          Op.seek 0 SEEK_SET, Op.read 4 none] = some ms ∧
      ((ms.cp = none ∧ ms.lenp = 0) ∨
        (ms.lenp + 1 ≤ capOf ms.cp ∧ byteAt ms.cp ms.lenp = some 0)) := by
  have hs : (run open_memstream
      [writeOp ([1, 2], junk), Op.seek 3 SEEK_END, writeOp ([7], junk),
        Op.seek 0 SEEK_SET, Op.read 4 none]).isSome = true := by decide
  obtain ⟨ms, h⟩ := Option.isSome_iff_exists.mp hs
  refine ⟨ms, h, terminator_invariant _ ms ?_ h⟩
  intro op hop
  simp only [List.mem_cons, List.mem_singleton, List.not_mem_nil, or_false] at hop
  rcases hop with rfl | rfl | rfl | rfl | rfl <;>
    simp [Op.wellTyped, writeOp, INT_LIM]

end Memstream

namespace Scratch

open Memstream (Byte INT_LIM)

/-! ## The registry -/

theorem mem_addONode (n : Int) (f b l : Nat) (reg : List oListNode) (r : oListNode) :
    r ∈ addONode n f b l reg ↔ r = ⟨n, f, b, l⟩ ∨ r ∈ reg := by
  induction reg with
  | nil => simp [addONode]
  | cons c rest ih =>
    unfold addONode
    by_cases hc : c.o_stream_number < n
    · rw [if_pos hc]
      simp only [List.mem_cons, ih]
      tauto
    · rw [if_neg hc]
      simp only [List.mem_cons]

theorem mem_numbers_addONode (n : Int) (f b l : Nat) (reg : List oListNode) (k : Int) :
    k ∈ numbers (addONode n f b l reg) ↔ k = n ∨ k ∈ numbers reg := by
  simp only [numbers, List.mem_map, mem_addONode]
  constructor
  · rintro ⟨r, hr | hr, rfl⟩
    · left; rw [hr]
    · right; exact ⟨r, hr, rfl⟩
  · rintro (rfl | ⟨r, hr, rfl⟩)
    · exact ⟨_, Or.inl rfl, rfl⟩
    · exact ⟨r, Or.inr hr, rfl⟩

/-- Where `addONode` puts the node: after a prefix of smaller numbers, in front
of the first node whose number is not smaller. -/
theorem addONode_split (n : Int) (f b l : Nat) (reg : List oListNode) :
    ∃ l1 l2, reg = l1 ++ l2 ∧ addONode n f b l reg = l1 ++ ⟨n, f, b, l⟩ :: l2 ∧
      (∀ r ∈ l1, r.o_stream_number < n) ∧
      (∀ r, l2.head? = some r → n ≤ r.o_stream_number) := by
  induction reg with
  | nil => exact ⟨[], [], rfl, rfl, by simp, by simp⟩
  | cons c rest ih =>
    unfold addONode
    by_cases hc : c.o_stream_number < n
    · rw [if_pos hc]
      obtain ⟨l1, l2, h1, h2, h3, h4⟩ := ih
      refine ⟨c :: l1, l2, by rw [h1]; rfl, by rw [h2]; rfl, ?_, h4⟩
      intro r hr
      rcases List.mem_cons.mp hr with rfl | hr
      · exact hc
      · exact h3 r hr
    · rw [if_neg hc]
      refine ⟨[], c :: rest, rfl, rfl, by simp, ?_⟩
      intro r hr
      simp only [List.head?_cons, Option.some.injEq] at hr
      subst hr
      omega

theorem addONode_pairwise_le (n : Int) (f b l : Nat) (reg : List oListNode)
    (hs : (numbers reg).Pairwise (fun a b => a ≤ b)) :
    (numbers (addONode n f b l reg)).Pairwise (fun a b => a ≤ b) := by
  induction reg with
  | nil => simp [addONode, numbers]
  | cons c rest ih =>
    simp only [numbers, List.map_cons, List.pairwise_cons] at hs
    unfold addONode
    by_cases hc : c.o_stream_number < n
    · rw [if_pos hc]
      simp only [numbers, List.map_cons, List.pairwise_cons]
      refine ⟨?_, ih hs.2⟩
      intro k hk
      rcases (mem_numbers_addONode n f b l rest k).mp hk with rfl | hk
      · omega
      · exact hs.1 k hk
    · rw [if_neg hc]
      simp only [numbers, List.map_cons, List.pairwise_cons]
      refine ⟨?_, hs.1, hs.2⟩
      intro k hk
      rcases List.mem_cons.mp hk with rfl | hk
      · omega
      · have := hs.1 k hk
        omega

theorem addONode_pairwise_lt (n : Int) (f b l : Nat) (reg : List oListNode)
    (hs : (numbers reg).Pairwise (fun a b => a < b)) (hn : n ∉ numbers reg) :
    (numbers (addONode n f b l reg)).Pairwise (fun a b => a < b) := by
  induction reg with
  | nil => simp [addONode, numbers]
  | cons c rest ih =>
    simp only [numbers, List.map_cons, List.pairwise_cons] at hs
    simp only [numbers, List.map_cons, List.mem_cons, not_or] at hn
    unfold addONode
    by_cases hc : c.o_stream_number < n
    · rw [if_pos hc]
      simp only [numbers, List.map_cons, List.pairwise_cons]
      refine ⟨?_, ih hs.2 hn.2⟩
      intro k hk
      rcases (mem_numbers_addONode n f b l rest k).mp hk with rfl | hk
      · exact hc
      · exact hs.1 k hk
    · rw [if_neg hc]
      simp only [numbers, List.map_cons, List.pairwise_cons]
      have hlt : n < c.o_stream_number := by
        have := hn.1
        omega
      refine ⟨?_, hs.1, hs.2⟩
      intro k hk
      rcases List.mem_cons.mp hk with rfl | hk
      · exact hlt
      · have := hs.1 k hk
        omega

theorem scanNumber_total (reg : List oListNode) :
    ∀ o : Int, o + (reg.length : Int) < (INT_LIM : Int) → ∃ k, scanNumber o reg = some k := by
  induction reg with
  | nil => intro o _; exact ⟨o, rfl⟩
  | cons c rest ih =>
    intro o hlen
    simp only [List.length_cons, Nat.cast_add, Nat.cast_one] at hlen
    unfold scanNumber
    by_cases hge : o ≥ c.o_stream_number
    · rw [if_pos hge, if_pos (by omega)]
      exact ih (o + 1) (by omega)
    · rw [if_neg hge]
      exact ⟨o, rfl⟩

theorem scanNumber_sound (reg : List oListNode) :
    ∀ o k : Int, (numbers reg).Pairwise (fun a b => a < b) →
      (∀ r ∈ reg, o ≤ r.o_stream_number) → scanNumber o reg = some k →
      o ≤ k ∧ (∀ r ∈ reg, r.o_stream_number ≠ k) ∧
        ∀ j, o ≤ j → j < k → ∃ r ∈ reg, r.o_stream_number = j := by
  induction reg with
  | nil =>
    intro o k _ _ h
    simp only [scanNumber, Option.some.injEq] at h
    subst h
    exact ⟨Int.le_refl _, by simp, fun j h1 h2 => absurd h2 (by omega)⟩
  | cons c rest ih =>
    intro o k hp hlow h
    simp only [numbers, List.map_cons, List.pairwise_cons] at hp
    have hc := hlow c (List.mem_cons_self _ _)
    unfold scanNumber at h
    by_cases hge : o ≥ c.o_stream_number
    · rw [if_pos hge] at h
      by_cases hov : o + 1 < (INT_LIM : Int)
      · rw [if_pos hov] at h
        have hlow1 : ∀ r ∈ rest, o + 1 ≤ r.o_stream_number := by
          intro r hr
          have := hp.1 r.o_stream_number (List.mem_map_of_mem _ hr)
          omega
        obtain ⟨h1, h2, h3⟩ := ih (o + 1) k hp.2 hlow1 h
        refine ⟨by omega, ?_, ?_⟩
        · intro r hr
          rcases List.mem_cons.mp hr with rfl | hr
          · omega
          · exact h2 r hr
        · intro j hj1 hj2
          by_cases hj : j = o
          · exact ⟨c, List.mem_cons_self _ _, by omega⟩
          · obtain ⟨r, hr, hrj⟩ := h3 j (by omega) hj2
            exact ⟨r, List.mem_cons_of_mem _ hr, hrj⟩
      · rw [if_neg hov] at h
        exact Option.noConfusion h
    · rw [if_neg hge] at h
      simp only [Option.some.injEq] at h
      subst h
      refine ⟨Int.le_refl _, ?_, fun j h1 h2 => absurd h2 (by omega)⟩
      intro r hr
      rcases List.mem_cons.mp hr with rfl | hr
      · omega
      · have := hp.1 r.o_stream_number (List.mem_map_of_mem _ hr)
        omega

/-! ## Claims on the registry -/

/-- Claim C13: for a registry whose stream numbers are positive and strictly
ascending (and which leaves a free `int`, that is, holds fewer than `INT_MAX`
records), `get_o_stream_number` returns a positive number that no record
carries and below which every positive number is carried by a record: the
smallest free positive number, `1` for the empty registry. -/
theorem next_free_number (reg : List oListNode)
    (hpos : ∀ r ∈ reg, 0 < r.o_stream_number)
    (hasc : (numbers reg).Pairwise (fun a b => a < b))
    (hlen : (reg.length : Int) + 1 < (INT_LIM : Int)) :
    ∃ k, get_o_stream_number reg = some k ∧ 0 < k ∧
      (∀ r ∈ reg, r.o_stream_number ≠ k) ∧
      (∀ j, 0 < j → j < k → ∃ r ∈ reg, r.o_stream_number = j) ∧
      (reg = [] → k = 1) := by
  obtain ⟨k, hk⟩ := scanNumber_total reg 1 (by omega)
  obtain ⟨h1, h2, h3⟩ := scanNumber_sound reg 1 k hasc
    (fun r hr => by have := hpos r hr; omega) hk
  refine ⟨k, hk, by omega, h2, fun j hj1 hj2 => h3 j (by omega) hj2, ?_⟩
  intro hnil
  subst hnil
  simp only [scanNumber, Option.some.injEq] at hk
  exact hk.symm

/-- Witness for C13: the registry with numbers 1, 2, 4 (stream 3 was closed). -/
theorem next_free_number_witness :
    ∃ k, get_o_stream_number [⟨1, 10, 0, 0⟩, ⟨2, 11, 1, 1⟩, ⟨4, 12, 2, 2⟩] = some k ∧ 0 < k ∧
      (∀ r ∈ [(⟨1, 10, 0, 0⟩ : oListNode), ⟨2, 11, 1, 1⟩, ⟨4, 12, 2, 2⟩],
        r.o_stream_number ≠ k) ∧
      (∀ j, 0 < j → j < k →
        ∃ r ∈ [(⟨1, 10, 0, 0⟩ : oListNode), ⟨2, 11, 1, 1⟩, ⟨4, 12, 2, 2⟩],
          r.o_stream_number = j) ∧
      ([(⟨1, 10, 0, 0⟩ : oListNode), ⟨2, 11, 1, 1⟩, ⟨4, 12, 2, 2⟩] = [] → k = 1) :=
  next_free_number [⟨1, 10, 0, 0⟩, ⟨2, 11, 1, 1⟩, ⟨4, 12, 2, 2⟩]
    (by simp) (by simp [numbers]) (by decide)

/-! ## Closing a stream -/

theorem find_none_of_unknown (reg : List oListNode) (f : Nat)
    (h : ∀ r ∈ reg, r.file ≠ f) : reg.find? (fun n => n.file = f) = none := by
  rw [List.find?_eq_none]
  intro r hr
  simpa using h r hr

theorem unlinkNode_eq_filter (reg : List oListNode) (f : Nat)
    (hd : (reg.map (fun r => r.file)).Nodup) :
    unlinkNode f reg = reg.filter (fun r => r.file ≠ f) := by
  induction reg with
  | nil => rfl
  | cons c rest ih =>
    simp only [List.map_cons, List.nodup_cons, List.mem_map, not_exists, not_and] at hd
    unfold unlinkNode
    by_cases hc : c.file = f
    · rw [if_pos hc]
      rw [List.filter_cons_of_neg (by simpa using hc)]
      symm
      rw [List.filter_eq_self]
      intro r hr
      have := hd.1 r hr
      simpa [hc] using this
    · rw [if_neg hc, List.filter_cons_of_pos (by simpa using hc), ih hd.2]

theorem find_of_registered (reg : List oListNode) (todel : oListNode)
    (hd : (reg.map (fun r => r.file)).Nodup) (hreg : todel ∈ reg) :
    reg.find? (fun n => n.file = todel.file) = some todel := by
  induction reg with
  | nil => exact absurd hreg (List.not_mem_nil _)
  | cons c rest ih =>
    simp only [List.map_cons, List.nodup_cons, List.mem_map, not_exists, not_and] at hd
    rcases List.mem_cons.mp hreg with rfl | hr
    · simp [List.find?_cons]
    · have hne : c.file ≠ todel.file := fun h => hd.1 todel hr h.symm
      rw [List.find?_cons_of_neg _ (by simpa using hne)]
      exact ih hd.2 hr

/-- When the position of the stream is at the end of its content, the close
stores the whole content followed by a zero byte, and its length. -/
theorem close_at_end (w : World) (f : Nat) (todel : oListNode)
    (hfind : w.oList.find? (fun n => n.file = f) = some todel)
    (hpos : (w.files f).pos = (w.files f).content.length) :
    ∃ w1, close_memstream w f allOk = some w1 ∧
      w1.bufs todel.buf = some ((w.files f).content ++ [0]) ∧
      w1.lens todel.length = (w.files f).content.length := by
  have hm : materialise (w.files f) (w.files f).pos = (w.files f).content ++ [0] := by
    unfold materialise
    rw [hpos, List.take_length]
    simp
  unfold close_memstream delONode
  rw [hfind]
  simp only [allOk, Bool.and_self, if_true]
  split
  · exact ⟨_, rfl, by simp [hm], by simp [hpos]⟩
  · exact ⟨_, rfl, by simp [hm], by simp [hpos]⟩

/-- Claim C14, code defect: in the scenario of the specification the scratch
file holds `[1,2,9,9,5]` and its position is 4 when the stream is closed.
`delONode` takes the length from `ftell` at that position, without seeking to
the end: the caller gets length 4 and the buffer `[1,2,9,9]` followed by the
zero byte, not `[1,2,9,9,5]` and length 5. -/
theorem close_takes_length_from_position :
    overwriteBeforeClose.map (fun w => ((w.files 7).content, (w.files 7).pos))
        = some ([1, 2, 9, 9, 5], 4) ∧
      overwriteScenario.map (fun w => (w.bufs 0, w.lens 0))
        = some (some [1, 2, 9, 9, 0], 4) := by
  decide

/-- Claim C16: inserting a record into a registry sorted ascending by stream
number splits the registry into the records before the new one, all with a
smaller number, and the records after it, none with a smaller number; the old
records keep their order and multiplicity, and the result is sorted ascending. -/
theorem addONode_keeps_order (reg : List oListNode) (n : Int) (f b l : Nat)
    (hs : (numbers reg).Pairwise (fun a b => a ≤ b)) :
    ∃ l1 l2, reg = l1 ++ l2 ∧ addONode n f b l reg = l1 ++ ⟨n, f, b, l⟩ :: l2 ∧
      (∀ r ∈ l1, r.o_stream_number < n) ∧ (∀ r ∈ l2, n ≤ r.o_stream_number) ∧
      (numbers (addONode n f b l reg)).Pairwise (fun a b => a ≤ b) := by
  obtain ⟨l1, l2, h1, h2, h3, h4⟩ := addONode_split n f b l reg
  refine ⟨l1, l2, h1, h2, h3, ?_, addONode_pairwise_le n f b l reg hs⟩
  intro r hr
  cases l2 with
  | nil => exact absurd hr (List.not_mem_nil _)
  | cons c t =>
    have hc : n ≤ c.o_stream_number := h4 c rfl
    rcases List.mem_cons.mp hr with rfl | hr
    · exact hc
    · rw [h1] at hs
      simp only [numbers, List.map_append, List.map_cons, List.pairwise_append,
        List.pairwise_cons] at hs
      have := hs.2.1.1 r.o_stream_number (List.mem_map_of_mem _ hr)
      omega

/-- Witness for C16: number 3 goes between the records 1, 2 and the record 4. -/
theorem addONode_keeps_order_witness :
    ∃ l1 l2, [(⟨1, 10, 0, 0⟩ : oListNode), ⟨2, 11, 1, 1⟩, ⟨4, 12, 2, 2⟩] = l1 ++ l2 ∧
      addONode 3 13 3 3 [⟨1, 10, 0, 0⟩, ⟨2, 11, 1, 1⟩, ⟨4, 12, 2, 2⟩]
        = l1 ++ ⟨3, 13, 3, 3⟩ :: l2 ∧
      (∀ r ∈ l1, r.o_stream_number < 3) ∧ (∀ r ∈ l2, 3 ≤ r.o_stream_number) ∧
      (numbers (addONode 3 13 3 3 [⟨1, 10, 0, 0⟩, ⟨2, 11, 1, 1⟩, ⟨4, 12, 2, 2⟩])).Pairwise
        (fun a b => a ≤ b) :=
  addONode_keeps_order [⟨1, 10, 0, 0⟩, ⟨2, 11, 1, 1⟩, ⟨4, 12, 2, 2⟩] 3 13 3 3
    (by simp [numbers])

/-- Claim C17: `close_memstream` on a handle that no record carries returns
with the registry, the caller's buffer and length slots, the scratch files and
the open streams all as they were. -/
theorem close_unknown_handle (w : World) (f : Nat) (io : CloseIO)
    (h : ∀ r ∈ w.oList, r.file ≠ f) :
    ∃ w1, close_memstream w f io = some w1 ∧ w1.oList = w.oList ∧ w1.bufs = w.bufs ∧
      w1.lens = w.lens ∧ w1.scratch = w.scratch ∧ w1.files = w.files := by
  unfold close_memstream delONode
  rw [find_none_of_unknown w.oList f h]
  simp only
  split
  · exact ⟨_, rfl, rfl, rfl, rfl, rfl, rfl⟩
  · exact ⟨_, rfl, rfl, rfl, rfl, rfl, rfl⟩

/-- Witness for C17: handle 99 on a registry holding the handles 10 and 11. -/
theorem close_unknown_handle_witness :
    ∃ w1, close_memstream
        { oList := [⟨1, 10, 0, 0⟩, ⟨2, 11, 1, 1⟩], dir := true, scratch := [1, 2],
          files := initial.files, bufs := initial.bufs, lens := initial.lens } 99 allOk
        = some w1 ∧
      w1.oList = [⟨1, 10, 0, 0⟩, ⟨2, 11, 1, 1⟩] ∧ w1.bufs = initial.bufs ∧
      w1.lens = initial.lens ∧ w1.scratch = [1, 2] ∧ w1.files = initial.files :=
  close_unknown_handle
    { oList := [⟨1, 10, 0, 0⟩, ⟨2, 11, 1, 1⟩], dir := true, scratch := [1, 2],
      files := initial.files, bufs := initial.bufs, lens := initial.lens } 99 allOk
    (by simp)

/-- Claim C19: on a registry with pairwise distinct handles, closing a
registered handle with every library call succeeding leaves the other records,
in their order, and writes no buffer slot and no length slot other than the
two of the closed record. -/
theorem close_removes_only_its_record (w : World) (todel : oListNode)
    (hd : (w.oList.map (fun r => r.file)).Nodup) (hreg : todel ∈ w.oList) :
    ∃ w1, close_memstream w todel.file allOk = some w1 ∧
      w1.oList = w.oList.filter (fun r => r.file ≠ todel.file) ∧
      (∀ a, a ≠ todel.buf → w1.bufs a = w.bufs a) ∧
      (∀ a, a ≠ todel.length → w1.lens a = w.lens a) := by
  unfold close_memstream delONode
  rw [find_of_registered w.oList todel hd hreg]
  simp only [allOk, Bool.and_self, if_true]
  rw [unlinkNode_eq_filter w.oList todel.file hd]
  split
  · refine ⟨_, rfl, rfl, ?_, ?_⟩
    · intro a ha; simp [ha]
    · intro a ha; simp [ha]
  · refine ⟨_, rfl, rfl, ?_, ?_⟩
    · intro a ha; simp [ha]
    · intro a ha; simp [ha]

/-- Witness for C19: closing handle 11 of the registry holding 10, 11 and 12. -/
theorem close_removes_only_its_record_witness :
    ∃ w1, close_memstream
        { oList := [⟨1, 10, 0, 0⟩, ⟨2, 11, 1, 1⟩, ⟨3, 12, 2, 2⟩], dir := true,
          scratch := [1, 2, 3], files := initial.files, bufs := initial.bufs,
          lens := initial.lens } (⟨2, 11, 1, 1⟩ : oListNode).file allOk = some w1 ∧
      w1.oList = List.filter (fun r => r.file ≠ (⟨2, 11, 1, 1⟩ : oListNode).file)
        [⟨1, 10, 0, 0⟩, ⟨2, 11, 1, 1⟩, ⟨3, 12, 2, 2⟩] ∧
      (∀ a, a ≠ (⟨2, 11, 1, 1⟩ : oListNode).buf → w1.bufs a = initial.bufs a) ∧
      (∀ a, a ≠ (⟨2, 11, 1, 1⟩ : oListNode).length → w1.lens a = initial.lens a) :=
  close_removes_only_its_record
    { oList := [⟨1, 10, 0, 0⟩, ⟨2, 11, 1, 1⟩, ⟨3, 12, 2, 2⟩], dir := true,
      scratch := [1, 2, 3], files := initial.files, bufs := initial.bufs,
      lens := initial.lens } ⟨2, 11, 1, 1⟩ (by decide) (by simp)

/-! ## Invariants of the adapter's state -/

theorem worldInv_initial : WorldInv initial := by
  refine ⟨?_, ?_, ?_, ?_⟩
  · intro r hr; exact absurd hr (List.not_mem_nil _)
  · exact List.Pairwise.nil
  · intro k; simp [initial, numbers]
  · intro h; exact absurd rfl h

theorem unlinkNode_sublist (f : Nat) (reg : List oListNode) :
    (unlinkNode f reg).Sublist reg := by
  induction reg with
  | nil => exact List.Sublist.slnil
  | cons c rest ih =>
    unfold unlinkNode
    by_cases hc : c.file = f
    · rw [if_pos hc]; exact List.sublist_cons_self c rest
    · rw [if_neg hc]; exact List.Sublist.cons₂ c ih

theorem mem_numbers_unlinkNode (f : Nat) (todel : oListNode) (reg : List oListNode)
    (hp : (numbers reg).Pairwise (fun a b => a < b))
    (hfind : reg.find? (fun n => n.file = f) = some todel) (k : Int) :
    k ∈ numbers (unlinkNode f reg) ↔ k ∈ numbers reg ∧ k ≠ todel.o_stream_number := by
  induction reg with
  | nil => simp at hfind
  | cons c rest ih =>
    simp only [numbers, List.map_cons, List.pairwise_cons] at hp
    unfold unlinkNode
    by_cases hc : c.file = f
    · rw [if_pos hc]
      rw [List.find?_cons_of_pos _ (by simpa using hc)] at hfind
      simp only [Option.some.injEq] at hfind
      subst hfind
      simp only [numbers, List.map_cons, List.mem_cons]
      constructor
      · intro hk
        have := hp.1 k hk
        exact ⟨Or.inr hk, by omega⟩
      · rintro ⟨hk | hk, hne⟩
        · exact absurd hk hne
        · exact hk
    · rw [if_neg hc]
      rw [List.find?_cons_of_neg _ (by simpa using hc)] at hfind
      have hmem : todel ∈ rest := List.mem_of_find?_eq_some hfind
      have hlt := hp.1 todel.o_stream_number (List.mem_map_of_mem _ hmem)
      have ih1 := ih hp.2 hfind
      simp only [numbers] at ih1
      simp only [numbers, List.map_cons, List.mem_cons, ih1]
      constructor
      · rintro (hk | ⟨hk, hne⟩)
        · exact ⟨Or.inl hk, by omega⟩
        · exact ⟨Or.inr hk, hne⟩
      · rintro ⟨hk | hk, hne⟩
        · exact Or.inl hk
        · exact Or.inr ⟨hk, hne⟩

theorem addONode_ne_nil (n : Int) (f b l : Nat) (reg : List oListNode) :
    addONode n f b l reg ≠ [] := by
  cases reg with
  | nil => simp [addONode]
  | cons c rest =>
    unfold addONode
    split <;> simp

theorem open_inv (w : World) (ptr sizeloc : Nat) (fo : Option Nat) (nodeOk : Bool)
    (r : World × Option Nat) (hinv : WorldInv w)
    (h : open_memstream w ptr sizeloc fo nodeOk = some r) : WorldInv r.1 := by
  obtain ⟨hpos, hasc, hscr, hdir⟩ := hinv
  unfold open_memstream at h
  cases hg : get_o_stream_number w.oList with
  | none => rw [hg] at h; exact Option.noConfusion h
  | some k =>
    rw [hg] at h
    obtain ⟨hk1, hk2, _⟩ := scanNumber_sound w.oList 1 k hasc
      (fun r hr => by have := hpos r hr; omega) hg
    have hdir1 : w.oList ≠ [] →
        (match w.oList with
          | [] => true
          | _ :: _ => w.dir) = true := by
      intro hne
      cases hl : w.oList with
      | nil => exact absurd hl hne
      | cons c t => simpa [hl] using hdir hne
    simp only at h
    split at h
    · simp only [Option.some.injEq] at h
      subst h
      exact ⟨hpos, hasc, hscr, hdir1⟩
    · rename_i f hf
      by_cases hn : nodeOk = true
      · rw [if_pos hn] at h
        simp only [Option.some.injEq] at h
        subst h
        refine ⟨?_, ?_, ?_, ?_⟩
        · intro r hr
          rcases (mem_addONode k f ptr sizeloc w.oList r).mp hr with rfl | hr
          · simp only []; omega
          · exact hpos r hr
        · apply addONode_pairwise_lt k f ptr sizeloc w.oList hasc
          intro hmem
          simp only [numbers, List.mem_map] at hmem
          obtain ⟨r, hr, hrk⟩ := hmem
          exact hk2 r hr hrk
        · intro j
          simp only [List.mem_insert_iff, mem_numbers_addONode, hscr]
        · intro _
          simp only []
          by_contra hcon
          rw [if_neg hcon] at hf
          exact Option.noConfusion hf
      · rw [if_neg hn] at h
        exact Option.noConfusion h

theorem delONode_inv (w w1 : World) (f : Nat) (io : CloseIO) (hinv : WorldInv w)
    (h : delONode w f io = some w1) : WorldInv w1 := by
  obtain ⟨hpos, hasc, hscr, hdir⟩ := hinv
  unfold delONode at h
  cases hfind : w.oList.find? (fun n => n.file = f) with
  | none =>
    rw [hfind] at h
    simp only [Option.some.injEq] at h
    subst h
    exact ⟨hpos, hasc, hscr, hdir⟩
  | some todel =>
    rw [hfind] at h
    simp only at h
    split at h
    · simp only [Option.some.injEq] at h
      subst h
      have hsub := unlinkNode_sublist f w.oList
      refine ⟨?_, ?_, ?_, ?_⟩
      · intro r hr
        exact hpos r (hsub.subset hr)
      · exact List.Pairwise.sublist (List.Sublist.map _ hsub) hasc
      · intro k
        simp only [List.mem_filter, decide_eq_true_eq, hscr]
        exact (mem_numbers_unlinkNode f todel w.oList hasc hfind k).symm
      · intro hne
        apply hdir
        intro hnil
        rw [hnil] at hne
        exact hne rfl
    · exact Option.noConfusion h

theorem close_inv (w w1 : World) (f : Nat) (io : CloseIO) (hinv : WorldInv w)
    (h : close_memstream w f io = some w1) :
    WorldInv w1 ∧ (w1.oList = [] → w1.dir = false) := by
  unfold close_memstream at h
  cases hd : delONode w f io with
  | none => rw [hd] at h; exact Option.noConfusion h
  | some w2 =>
    rw [hd] at h
    obtain ⟨hpos, hasc, hscr, hdir⟩ := delONode_inv w w2 f io hinv hd
    simp only at h
    split at h
    · rename_i hnil
      simp only [Option.some.injEq] at h
      subst h
      have hempty : w2.scratch = [] := by
        apply List.eq_nil_iff_forall_not_mem.mpr
        intro k hk
        have := (hscr k).mp hk
        rw [hnil] at this
        simp [numbers] at this
      refine ⟨⟨?_, ?_, ?_, ?_⟩, ?_⟩
      · intro r hr; simp only [hnil] at hr; exact absurd hr (List.not_mem_nil _)
      · simp only [hnil]; exact List.Pairwise.nil
      · intro k; simp only [hnil, hempty, numbers, List.map_nil]
      · intro hne; simp only [hnil] at hne; exact absurd rfl hne
      · intro _
        simp [hempty]
    · rename_i c t hcons
      simp only [Option.some.injEq] at h
      subst h
      refine ⟨⟨hpos, hasc, hscr, hdir⟩, ?_⟩
      intro hnil
      rw [hcons] at hnil
      exact List.noConfusion hnil

theorem stepCall_inv (w w1 : World) (c : Call) (hinv : WorldInv w)
    (h : stepCall w c = some w1) : WorldInv w1 := by
  cases c with
  | opening ptr sizeloc fo nodeOk =>
    simp only [stepCall, Option.map_eq_some'] at h
    obtain ⟨r, hr, rfl⟩ := h
    exact open_inv w ptr sizeloc fo nodeOk r hinv hr
  | closing f io => exact (close_inv w w1 f io hinv h).1

theorem runCalls_inv (cs : List Call) :
    ∀ w w1 : World, WorldInv w → runCalls w cs = some w1 → WorldInv w1 := by
  induction cs with
  | nil =>
    intro w w1 hinv h
    simp only [runCalls, Option.some.injEq] at h
    subst h
    exact hinv
  | cons c cs ih =>
    intro w w1 hinv h
    unfold runCalls at h
    cases hs : stepCall w c with
    | none => rw [hs] at h; exact Option.noConfusion h
    | some w2 =>
      rw [hs] at h
      exact ih w2 w1 (stepCall_inv w w2 c hinv hs) h

theorem open_strict (w : World) (ptr sizeloc : Nat) (fo : Option Nat) (nodeOk : Bool)
    (r : World × Option Nat) (hfo : fo ≠ none)
    (h : open_memstream w ptr sizeloc fo nodeOk = some r) : r.1.oList ≠ [] := by
  unfold open_memstream at h
  cases hg : get_o_stream_number w.oList with
  | none => rw [hg] at h; exact Option.noConfusion h
  | some k =>
    rw [hg] at h
    simp only at h
    split at h
    · rename_i hf
      simp only [Option.some.injEq] at h
      subst h
      simp only []
      intro hnil
      rw [hnil] at hf
      simp only [if_true] at hf
      exact hfo hf
    · by_cases hn : nodeOk = true
      · rw [if_pos hn] at h
        simp only [Option.some.injEq] at h
        subst h
        exact addONode_ne_nil _ _ _ _ _
      · rw [if_neg hn] at h
        exact Option.noConfusion h

theorem runCalls_strict (cs : List Call) :
    ∀ w w1 : World, WorldInv w → (w.oList = [] → w.dir = false) →
      (∀ c ∈ cs, c.opens) → runCalls w cs = some w1 → (w1.oList = [] → w1.dir = false) := by
  induction cs with
  | nil =>
    intro w w1 _ hs _ h
    simp only [runCalls, Option.some.injEq] at h
    subst h
    exact hs
  | cons c cs ih =>
    intro w w1 hinv hs hop h
    unfold runCalls at h
    cases hst : stepCall w c with
    | none => rw [hst] at h; exact Option.noConfusion h
    | some w2 =>
      rw [hst] at h
      have hinv2 := stepCall_inv w w2 c hinv hst
      refine ih w2 w1 hinv2 ?_ (fun d hd => hop d (List.mem_cons_of_mem _ hd)) h
      have hc := hop c (List.mem_cons_self _ _)
      cases c with
      | opening ptr sizeloc fo nodeOk =>
        simp only [stepCall, Option.map_eq_some'] at hst
        obtain ⟨r, hr, rfl⟩ := hst
        intro hnil
        exact absurd hnil (open_strict w ptr sizeloc fo nodeOk r hc hr)
      | closing f io => exact (close_inv w w2 f io hinv hst).2

/-! ## Claims on sequences of calls and on the file name -/

/-- Claim C15: after every sequence of `open_memstream` and `close_memstream`
calls from the empty registry (opens succeeding or failing at `fopen`, closes
on registered or unregistered handles), the stream numbers in the registry are
positive, strictly ascending and pairwise distinct. -/
theorem registry_numbers_distinct (cs : List Call) (w : World)
    (h : runCalls initial cs = some w) :
    (∀ r ∈ w.oList, 0 < r.o_stream_number) ∧
      (numbers w.oList).Pairwise (fun a b => a < b) ∧ (numbers w.oList).Nodup := by
  obtain ⟨hpos, hasc, _, _⟩ := runCalls_inv cs initial w worldInv_initial h
  exact ⟨hpos, hasc, List.Pairwise.imp (fun hab => Int.ne_of_lt hab) hasc⟩

/-- Witness for C15: the session with a failed open, an out-of-order close, a
reused number and a close on an unknown handle. -/
theorem registry_numbers_distinct_witness :
    ∃ w, runCalls initial sessionCalls = some w ∧
      (∀ r ∈ w.oList, 0 < r.o_stream_number) ∧
      (numbers w.oList).Pairwise (fun a b => a < b) ∧ (numbers w.oList).Nodup := by
  have hs : (runCalls initial sessionCalls).isSome = true := by decide
  obtain ⟨w, h⟩ := Option.isSome_iff_exists.mp hs
  exact ⟨w, h, registry_numbers_distinct sessionCalls w h⟩

/-- Claim C18, counterexample: the first `open_memstream` of a process, failing
at `fopen`: the directory has been created and the registry is still empty. -/
theorem failed_first_open_leaves_directory :
    (runCalls initial [Call.opening 0 0 none true]).map
      (fun w => (w.oList.length, w.dir)) = some (0, true) := by
  decide

/-- Claim C18, amended: after every sequence of `open_memstream` and
`close_memstream` calls from the empty registry with no directory, a non-empty
registry has its directory; the registry is non-empty exactly when the
directory exists if no `open_memstream` of the sequence failed at `fopen`, and
again after any further `close_memstream`, so that closing the last open
stream removes the directory. -/
theorem directory_tracks_registry (cs : List Call) (w : World)
    (h : runCalls initial cs = some w) :
    (w.oList ≠ [] → w.dir = true) ∧
      ((∀ c ∈ cs, c.opens) → (w.oList ≠ [] ↔ w.dir = true)) ∧
      (∀ (f : Nat) (io : CloseIO) (w1 : World), close_memstream w f io = some w1 →
        (w1.oList ≠ [] ↔ w1.dir = true)) := by
  have hinv := runCalls_inv cs initial w worldInv_initial h
  refine ⟨hinv.2.2.2, ?_, ?_⟩
  · intro hop
    have hs := runCalls_strict cs initial w worldInv_initial (fun _ => rfl) hop h
    constructor
    · exact hinv.2.2.2
    · intro hd hnil
      rw [hs hnil] at hd
      exact Bool.noConfusion hd
  · intro f io w1 hc
    obtain ⟨hinv1, hs1⟩ := close_inv w w1 f io hinv hc
    constructor
    · exact hinv1.2.2.2
    · intro hd hnil
      rw [hs1 hnil] at hd
      exact Bool.noConfusion hd

/-- Witness for C18, amended: two streams opened and closed; the registry is
empty and the directory is gone. -/
theorem directory_tracks_registry_witness :
    ∃ w, runCalls initial cleanCalls = some w ∧ w.oList = [] ∧ w.dir = false ∧
      (w.oList ≠ [] → w.dir = true) ∧
      ((∀ c ∈ cleanCalls, c.opens) → (w.oList ≠ [] ↔ w.dir = true)) ∧
      (∀ (f : Nat) (io : CloseIO) (w1 : World), close_memstream w f io = some w1 →
        (w1.oList ≠ [] ↔ w1.dir = true)) := by
  have hs : (runCalls initial cleanCalls).isSome = true := by decide
  obtain ⟨w, h⟩ := Option.isSome_iff_exists.mp hs
  have hw : (runCalls initial cleanCalls).map (fun w => (w.oList.length, w.dir))
      = some (0, false) := by decide
  rw [h] at hw
  simp only [Option.map_some', Option.some.injEq, Prod.mk.injEq] at hw
  exact ⟨w, h, List.length_eq_zero.mp hw.1, hw.2, directory_tracks_registry cleanCalls w h⟩

/-- Claim C20, code defect: for the process id `1000000000` and the stream
number `1`, both 32-bit `int`s, `setOFileName` builds
`ostr_job_1000000000/o_stream_1`, 30 characters, which with its terminator
needs 31 bytes, one more than the `file_name` arrays hold; for the largest
`int`s the name has 39 characters. -/
theorem file_name_exceeds_buffer :
    setOFileName 1000000000 1 = "ostr_job_1000000000/o_stream_1".toList ∧
      (setOFileName 1000000000 1).length = 30 ∧
      FILE_NAME_SIZE < (setOFileName 1000000000 1).length + 1 ∧
      (setOFileName 2147483647 2147483647).length = 39 := by
  decide

end Scratch
